import Mathlib

/-!
Verification development for the gobwas/json.go repository.

The repository contains two independently written JSON parsers:

* `P1` — the scanner-based pair (package `parser`): a `Scanner` producing
  classified tokens (`Scanner.Scan`, `Scanner.scanNumber`,
  `Scanner.scanString`, `Scanner.scanWhitespace`, `Scanner.scanIdentifier`)
  and a recursive-descent `Parser` with one-token pushback
  (`Parser.Parse`, `Parser.scanValue`, `Parser.scanArray`,
  `Parser.scanObject`) plus the decode helpers `parseString` and
  `parseNumber`.

* `P2` — the index-based pair (package `js`): `Parser.Parse`,
  `Parser.value`, `Parser.object`, `Parser.array`, `Parser.string`,
  `Parser.number`, `Parser.getToken`, `Parser.skipWhitespace` working
  over a rune slice with an index and remaining-length counter.

Both are embedded shallowly below.  Go's `bufio`/index cursor is
modelled by the list of remaining input characters; out-of-range slice
accesses (Go runtime panics) are modelled by a distinguished `panic`
result constructor; the unbounded parser loops are modelled with fuel
(`oof` = out of fuel), so that genuine non-termination of the Go code
appears as `oof` for every fuel value.  Go's `strconv.ParseFloat` and
`strconv.ParseUint` (standard library, not part of the repository) are
modelled over exact rationals: `parseFloatQ` follows the decimal float
grammar ParseFloat accepts, returns `none` for a value at or beyond
the `float64` overflow threshold `2 ^ 1024 - 2 ^ 970` (ParseFloat's
`ErrRange`, which both parsers propagate as their number error), and
otherwise returns the exact rational value of the literal (only the
final IEEE-754 rounding of in-range values, deterministic in the
rational value, is abstracted away).
-/

set_option maxRecDepth 8192

/-- Left curly brace character, written via its code point. -/
def lbrace : Char := Char.ofNat 123

/-- Right curly brace character, written via its code point. -/
def rbrace : Char := Char.ofNat 125

/-- The rune 0 that the scanner-based lexer uses as its eof marker. -/
def eofChar : Char := Char.ofNat 0

/-- Whitespace per both implementations: space, newline, carriage return, tab. -/
def isWhitespace (c : Char) : Bool :=
  c = ' ' || c = '\n' || c = '\r' || c = '\t'

/-- Lowercase ASCII letter test (Go `isLowerCaseLetter`). -/
def isLowerCaseLetter (c : Char) : Bool :=
  'a' ≤ c && c ≤ 'z'

/-- Go `isNumeric` from the scanner-based lexer: an ASCII digit or `-`. -/
def isNumeric (c : Char) : Bool :=
  ('0' ≤ c && c ≤ '9') || c = '-'

/-- ASCII digit test (the `NumberStart` regexp of the index-based parser). -/
def isDigit (c : Char) : Bool :=
  '0' ≤ c && c ≤ '9'

/-- Character class of the `NumberBody` regexp of the index-based parser. -/
def isNumBody (c : Char) : Bool :=
  isDigit c || c = '+' || c = '-' || c = '.' || c = 'e' || c = 'E'

/-- Go `unicode.IsControl` restricted to the code points it accepts:
the C0 and C1 control ranges (this includes the rune 0 eof marker). -/
def isControl (c : Char) : Bool :=
  c.toNat < 0x20 || (0x7F ≤ c.toNat && c.toNat ≤ 0x9F)

/-- Hexadecimal digit value, `none` for a non-hex character
(Go `strconv.ParseUint` with base 16 rejects the whole string then). -/
def hexDigit (c : Char) : Option Nat :=
  if '0' ≤ c && c ≤ '9' then some (c.toNat - 48)
  else if 'a' ≤ c && c ≤ 'f' then some (c.toNat - 87)
  else if 'A' ≤ c && c ≤ 'F' then some (c.toNat - 55)
  else none

/-- Go `strconv.ParseUint(s, 16, 64)` on a short string: the value when
every character is a hex digit and the string is nonempty, else `none`. -/
def parseHexNat (l : List Char) : Option Nat :=
  match l with
  | [] => none
  | _ =>
    l.foldl (fun acc c =>
      match acc, hexDigit c with
      | some a, some d => some (16 * a + d)
      | _, _ => none) (some 0)

/-- Go `fmt.Sprintf("%c", code)` for a code in 0..0xFFFF: the character
itself, or U+FFFD for a surrogate code point (invalid rune). -/
def hexChar (code : Nat) : Char :=
  if 0xD800 ≤ code && code ≤ 0xDFFF then Char.ofNat 0xFFFD else Char.ofNat code

/-- Numeric value of a digit run, most significant digit first. -/
def digitsVal (l : List Char) : Nat :=
  l.foldl (fun a c => 10 * a + (c.toNat - 48)) 0

/-- Whether the exact decimal value `mag / den` (with `den` a positive
power of ten) is strictly below the `float64` overflow threshold.
Go `strconv.ParseFloat(s, 64)` returns `ErrRange` — which both parsers
turn into their number error — exactly when the value of the literal,
in absolute value, reaches `2 ^ 1024 - 2 ^ 970`: that is the midpoint
between the largest finite double and `2 ^ 1024`, and round-to-nearest
ties-to-even sends it and everything above to infinity (underflow to
zero sets no error in `atof`). -/
def inFloat64Range (mag den : Nat) : Bool :=
  mag < (2 ^ 1024 - 2 ^ 970) * den

/-- Model of Go `strconv.ParseFloat(s, 64)` on the decimal forms that
the two parsers can feed it: optional sign, digits with an optional
fraction (at least one digit overall), and an optional exponent
`e`/`E` with optional sign and at least one digit; any other text is
an error (`none`).  A value at or beyond the `float64` overflow
threshold is `ErrRange` in Go and an error (`none`) here; within
range the result is the exact rational value of the literal, so only
the IEEE-754 rounding of in-range values is abstracted away. -/
def parseFloatQ (s : List Char) : Option ℚ :=
  let sgn : Bool × List Char :=
    match s with
    | '-' :: r => (true, r)
    | '+' :: r => (false, r)
    | r => (false, r)
  let ds := sgn.2.takeWhile isDigit
  let r2 := sgn.2.dropWhile isDigit
  let frac : List Char × List Char :=
    match r2 with
    | '.' :: r => (r.takeWhile isDigit, r.dropWhile isDigit)
    | _ => ([], r2)
  if ds.isEmpty && frac.1.isEmpty then none
  else
    let k := frac.1.length
    let mant : Int := (digitsVal ds * 10 ^ k + digitsVal frac.1 : Nat)
    let sv : Int := if sgn.1 then -mant else mant
    match frac.2 with
    | [] =>
      if inFloat64Range mant.toNat (10 ^ k) then some (mkRat sv (10 ^ k)) else none
    | c :: r4 =>
      if c = 'e' || c = 'E' then
        let esgn : Bool × List Char :=
          match r4 with
          | '-' :: r => (true, r)
          | '+' :: r => (false, r)
          | r => (false, r)
        let es := esgn.2.takeWhile isDigit
        let r6 := esgn.2.dropWhile isDigit
        if es.isEmpty then none
        else if r6.isEmpty then
          if esgn.1 then
            if inFloat64Range mant.toNat (10 ^ k * 10 ^ digitsVal es) then
              some (mkRat sv (10 ^ k * 10 ^ digitsVal es))
            else none
          else
            if inFloat64Range (mant.toNat * 10 ^ digitsVal es) (10 ^ k) then
              some (mkRat (sv * 10 ^ digitsVal es) (10 ^ k))
            else none
        else none
      else none

/-- Generic decoded JSON value: Go `interface{}` results of both parsers.
Objects are Go maps observed as insertion-ordered associations with
unique keys (`mapSet` below gives the map-update semantics). -/
inductive JValue where
  | null : JValue
  | bool : Bool → JValue
  | num : ℚ → JValue
  | str : List Char → JValue
  | arr : List JValue → JValue
  | obj : List (List Char × JValue) → JValue

/-- Go map update `obj[key] = value`: replace the binding if the key is
present, otherwise append it. -/
def mapSet (m : List (List Char × JValue)) (k : List Char) (v : JValue) :
    List (List Char × JValue) :=
  match m with
  | [] => [(k, v)]
  | (k', v') :: rest => if k' = k then (k, v) :: rest else (k', v') :: mapSet rest k v


namespace P1

/-- Token types of the scanner-based lexer (`Type` in parser.go). -/
inductive Ty where
  | ILLEGAL | EOF | WHITESPACE | NUMBER | STRING
  | CURLY_BRACE_OPEN | CURLY_BRACE_CLOSE
  | SQUARED_BRACE_OPEN | SQUARED_BRACE_CLOSE
  | COMMA | COLON | NULL | TRUE | FALSE
deriving DecidableEq

/-- A scanner token; `runes` carries the raw text (the Go `Token` also
carries `Literal`, the same text as a string). -/
structure Token where
  ty : Ty
  runes : List Char
deriving DecidableEq

/-- Errors of the scanner-based implementation, one constructor per
`fmt.Errorf`/`errors` site in the Go code. -/
inductive Err where
  | badEscapeScan (c : Char)      -- scanString: "unexpected end of input: %q"
  | hexParse                      -- parseString: "could not parse hex charcode"
  | shortUnicode                  -- parseString: "unexpected length of hex symbol"
  | badEscapeDecode (c : Char)    -- parseString: "unexpected token after screen character"
  | numberFormat                  -- parseNumber: "could not parse number"
  | illegalLiteral (l : List Char)  -- scanValue: "illegal literal"
  | notValue (t : Ty)             -- scanValue: "could not parse token as value"
  | expectedArrayOpen (t : Ty)    -- scanArray: "found ... expected '['"
  | expectedObjectOpen (t : Ty)   -- scanObject: "found ... expected '{'"
  | expectedColon (t : Ty)        -- scanObject: "found ... expected ':'"
  | unexpectedObjectToken (t : Ty)  -- scanObject: "unexpected token"
  | topLevel (t : Ty)             -- Parse: "found ... expected '{' or '['"
deriving DecidableEq

/-- Result of string decoding (`parseString` in parser.go): the decoded
characters, a decode error, or a Go runtime panic from an
out-of-range slice access. -/
inductive DRes where
  | ok (s : List Char)
  | err (e : Err)
  | panic
deriving DecidableEq

/-- Result of `Scanner.Scan`: a token plus the remaining input, or a
scan error. -/
inductive SRes where
  | ok (t : Token) (rem : List Char)
  | err (e : Err)
deriving DecidableEq

/-- Loop of `Scanner.scanWhitespace`: collect the maximal whitespace
run; at eof stop, at any other character unread it and stop. -/
def scanWhitespaceLoop : List Char → List Char × List Char
  | [] => ([], [])
  | c :: rs =>
    if isWhitespace c then
      let p := scanWhitespaceLoop rs
      (c :: p.1, p.2)
    else ([], c :: rs)

/-- Loop of `Scanner.scanIdentifier`: collect the maximal lowercase run. -/
def scanIdentifierLoop : List Char → List Char × List Char
  | [] => ([], [])
  | c :: rs =>
    if isLowerCaseLetter c then
      let p := scanIdentifierLoop rs
      (c :: p.1, p.2)
    else ([], c :: rs)

/-- `Scanner.scanIdentifier`: classify the collected word as a reserved
literal or `ILLEGAL`. -/
def scanIdentifier (rem : List Char) : Token × List Char :=
  let p := scanIdentifierLoop rem
  if p.1 = "null".toList then (⟨.NULL, p.1⟩, p.2)
  else if p.1 = "true".toList then (⟨.TRUE, p.1⟩, p.2)
  else if p.1 = "false".toList then (⟨.FALSE, p.1⟩, p.2)
  else (⟨.ILLEGAL, p.1⟩, p.2)

/-- States of the number state machine (`NumberState` in parser.go). -/
inductive NState where
  | SIGN | DECIMAL_LESS_THAN_ONE | DECIMAL | FRACTIONAL
  | EXPONENTIAL_SIGN | EXPONENTIAL
deriving DecidableEq

/-- Loop of `Scanner.scanNumber`.  In state `SIGN` the next character is
written unconditionally (at eof this is the rune 0); in state
`DECIMAL_LESS_THAN_ONE` (after a leading zero) only `.` extends the
token; `e`/`E` is accepted only from `FRACTIONAL`. -/
def scanNumberLoop : NState → List Char → List Char × List Char
  | .SIGN, [] => ([eofChar], [])
  | .SIGN, c :: rs =>
    let st := if c = '0' then NState.DECIMAL_LESS_THAN_ONE else NState.DECIMAL
    let p := scanNumberLoop st rs
    (c :: p.1, p.2)
  | .DECIMAL_LESS_THAN_ONE, [] => ([], [])
  | .DECIMAL_LESS_THAN_ONE, c :: rs =>
    if c = '.' then
      let p := scanNumberLoop .FRACTIONAL rs
      (c :: p.1, p.2)
    else ([], c :: rs)
  | .DECIMAL, [] => ([], [])
  | .DECIMAL, c :: rs =>
    if c = '.' then
      let p := scanNumberLoop .FRACTIONAL rs
      (c :: p.1, p.2)
    else if isDigit c then
      let p := scanNumberLoop .DECIMAL rs
      (c :: p.1, p.2)
    else ([], c :: rs)
  | .FRACTIONAL, [] => ([], [])
  | .FRACTIONAL, c :: rs =>
    if c = 'E' || c = 'e' then
      let p := scanNumberLoop .EXPONENTIAL_SIGN rs
      (c :: p.1, p.2)
    else if isDigit c then
      let p := scanNumberLoop .FRACTIONAL rs
      (c :: p.1, p.2)
    else ([], c :: rs)
  | .EXPONENTIAL_SIGN, [] => ([], [])
  | .EXPONENTIAL_SIGN, c :: rs =>
    if c = '+' || c = '-' || isDigit c then
      let p := scanNumberLoop .EXPONENTIAL rs
      (c :: p.1, p.2)
    else ([], c :: rs)
  | .EXPONENTIAL, [] => ([], [])
  | .EXPONENTIAL, c :: rs =>
    if isDigit c then
      let p := scanNumberLoop .EXPONENTIAL rs
      (c :: p.1, p.2)
    else ([], c :: rs)

/-- `Scanner.scanNumber`: read the first rune, pick the initial state,
then run the state machine loop. -/
def scanNumber (rem : List Char) : Token × List Char :=
  match rem with
  | [] => (⟨.NUMBER, []⟩, [])
  | c :: rs =>
    if isNumeric c then
      let st := if c = '-' then NState.SIGN
                else if c = '0' then NState.DECIMAL_LESS_THAN_ONE
                else NState.DECIMAL
      let p := scanNumberLoop st rs
      (⟨.NUMBER, c :: p.1⟩, p.2)
    else (⟨.NUMBER, []⟩, c :: rs)

/-- Loop of `Scanner.scanString` (after the opening quote is in the
buffer).  A control character (including the rune 0 at eof) stops the
token without being consumed; after a backslash only the nine allowed
escape letters are accepted, anything else is a scan error. -/
def scanStringLoop (screen : Bool) (rem : List Char) : SRes :=
  match rem with
  | [] => .ok ⟨.STRING, []⟩ []
  | c :: rs =>
    if isControl c then .ok ⟨.STRING, []⟩ (c :: rs)
    else if screen then
      if c = '"' || c = '\\' || c = '/' || c = 'b' || c = 'f' || c = 'n' ||
         c = 'r' || c = 't' || c = 'u' then
        match scanStringLoop false rs with
        | .ok t r => .ok ⟨.STRING, c :: t.runes⟩ r
        | .err e => .err e
      else .err (.badEscapeScan c)
    else if c = '\\' then
      match scanStringLoop true rs with
      | .ok t r => .ok ⟨.STRING, c :: t.runes⟩ r
      | .err e => .err e
    else if c = '"' then .ok ⟨.STRING, [c]⟩ rs
    else
      match scanStringLoop false rs with
      | .ok t r => .ok ⟨.STRING, c :: t.runes⟩ r
      | .err e => .err e

/-- `Scanner.scanString`: consume the opening quote into the buffer and
run the loop (when the first rune is not a quote the Go code unreads it
and returns an empty `STRING` token). -/
def scanString (rem : List Char) : SRes :=
  match rem with
  | [] => .ok ⟨.STRING, []⟩ []
  | c :: rs =>
    if c = '"' then
      match scanStringLoop false rs with
      | .ok t r => .ok ⟨.STRING, c :: t.runes⟩ r
      | .err e => .err e
    else .ok ⟨.STRING, []⟩ (c :: rs)

/-- `Scanner.Scan`: classification in source order — whitespace,
lowercase word, string, number, then single-character tokens, with
`EOF` for exhausted input and `ILLEGAL` otherwise. -/
def Scan (rem : List Char) : SRes :=
  match rem with
  | [] => .ok ⟨.EOF, [eofChar]⟩ []
  | c :: rs =>
    if isWhitespace c then
      let p := scanWhitespaceLoop (c :: rs)
      .ok ⟨.WHITESPACE, p.1⟩ p.2
    else if isLowerCaseLetter c then
      let p := scanIdentifier (c :: rs)
      .ok p.1 p.2
    else if c = '"' then scanString (c :: rs)
    else if isNumeric c then
      let p := scanNumber (c :: rs)
      .ok p.1 p.2
    else if c = lbrace then .ok ⟨.CURLY_BRACE_OPEN, [c]⟩ rs
    else if c = rbrace then .ok ⟨.CURLY_BRACE_CLOSE, [c]⟩ rs
    else if c = '[' then .ok ⟨.SQUARED_BRACE_OPEN, [c]⟩ rs
    else if c = ']' then .ok ⟨.SQUARED_BRACE_CLOSE, [c]⟩ rs
    else if c = ':' then .ok ⟨.COLON, [c]⟩ rs
    else if c = ',' then .ok ⟨.COMMA, [c]⟩ rs
    else .ok ⟨.ILLEGAL, [c]⟩ rs

/-- Loop of `parseString` in parser.go, over the token text after the
opening quote.  The `hex` branch slices four runes
(`runes[index : index+4]`): with fewer than four left this is a Go
slice-bounds panic.  The guard at `u` errors only when fewer than four
runes remain counting from `u` itself. -/
def parseStringLoop : Bool → Bool → List Char → DRes
  | _, _, [] => .ok []
  | _, true, c1 :: c2 :: c3 :: c4 :: rest =>
    match parseHexNat [c1, c2, c3, c4] with
    | none => .err .hexParse
    | some code =>
      match parseStringLoop false false rest with
      | .ok s => .ok (hexChar code :: s)
      | r => r
  | _, true, _ => .panic
  | true, false, c :: rs =>
    if c = '\\' || c = '"' || c = '/' then
      match parseStringLoop false false rs with
      | .ok s => .ok (c :: s)
      | r => r
    else if c = 'b' then
      match parseStringLoop false false rs with
      | .ok s => .ok (Char.ofNat 8 :: s)
      | r => r
    else if c = 'f' then
      match parseStringLoop false false rs with
      | .ok s => .ok (Char.ofNat 12 :: s)
      | r => r
    else if c = 'n' then
      match parseStringLoop false false rs with
      | .ok s => .ok ('\n' :: s)
      | r => r
    else if c = 'r' then
      match parseStringLoop false false rs with
      | .ok s => .ok (Char.ofNat 13 :: s)
      | r => r
    else if c = 't' then
      match parseStringLoop false false rs with
      | .ok s => .ok ('\t' :: s)
      | r => r
    else if c = 'u' then
      if (c :: rs).length < 4 then .err .shortUnicode
      else parseStringLoop false true rs
    else .err (.badEscapeDecode c)
  | false, false, c :: rs =>
    if c = '"' then .ok []
    else if c = '\\' then parseStringLoop true false rs
    else
      match parseStringLoop false false rs with
      | .ok s => .ok (c :: s)
      | r => r

/-- `parseString` in parser.go: decode a string token's runes, skipping
the opening quote. -/
def parseString (runes : List Char) : DRes :=
  parseStringLoop false false (runes.drop 1)

/-- `parseNumber` in parser.go: `strconv.ParseFloat` on the token text. -/
def parseNumber (runes : List Char) : Option ℚ :=
  parseFloatQ runes

end P1

namespace P1

/-- Parser state: remaining input plus the one-token pushback buffer
(`Parser.buf` in parser.go: the last scanned token and a size flag). -/
structure St where
  rem : List Char
  last : Option Token
  buf : Bool
deriving DecidableEq

/-- Placeholder for reading an unset buffer (unreachable from the
entry points, matching the Go nil token). -/
def dummyToken : Token := ⟨.EOF, []⟩

/-- `Parser.scan`: return the buffered token if the pushback flag is
set, otherwise scan a fresh token and remember it. -/
def scan (s : St) : Except Err (Token × St) :=
  if s.buf then .ok (s.last.getD dummyToken, ⟨s.rem, s.last, false⟩)
  else
    match Scan s.rem with
    | .ok t r => .ok (t, ⟨r, some t, false⟩)
    | .err e => .error e

/-- `Parser.unscan`: set the pushback flag. -/
def unscan (s : St) : St := ⟨s.rem, s.last, true⟩

/-- `Parser.scanIgnoreWhitespace`: scan, and scan once more if the
first token is whitespace. -/
def scanIgnoreWhitespace (s : St) : Except Err (Token × St) :=
  match scan s with
  | .error e => .error e
  | .ok (t, s') => if t.ty = .WHITESPACE then scan s' else .ok (t, s')

/-- Result of the recursive-descent functions: a value with the state
after it, an error, a Go runtime panic, or out of fuel (`oof`), the
latter modelling non-termination of the Go loops. -/
inductive Res where
  | ok (v : JValue) (s : St)
  | err (e : Err)
  | panic
  | oof

mutual

/-- `Parser.scanValue`: dispatch on the next non-whitespace token. -/
def scanValueF : Nat → St → Res
  | 0, _ => .oof
  | Nat.succ f, s =>
    match scanIgnoreWhitespace s with
    | .error e => .err e
    | .ok (t, s') =>
      match t.ty with
      | .CURLY_BRACE_OPEN => scanObjectF f (unscan s')
      | .SQUARED_BRACE_OPEN => scanArrayF f (unscan s')
      | .STRING =>
        match parseString t.runes with
        | .ok str => .ok (.str str) s'
        | .err e => .err e
        | .panic => .panic
      | .NUMBER =>
        match parseNumber t.runes with
        | some q => .ok (.num q) s'
        | none => .err .numberFormat
      | .NULL => .ok .null s'
      | .FALSE => .ok (.bool false) s'
      | .TRUE => .ok (.bool true) s'
      | .ILLEGAL => .err (.illegalLiteral t.runes)
      | _ => .err (.notValue t.ty)

/-- `Parser.scanArray` entry: expect `[`, then run the member loop. -/
def scanArrayF : Nat → St → Res
  | 0, _ => .oof
  | Nat.succ f, s =>
    match scan s with
    | .error e => .err e
    | .ok (t, s') =>
      if t.ty = .SQUARED_BRACE_OPEN then scanArrayLoopF f [] s'
      else .err (.expectedArrayOpen t.ty)

/-- The member loop of `Parser.scanArray`.  Its `switch` has no case
for `EOF`, `ILLEGAL`, `CURLY_BRACE_CLOSE` or `COLON`: such tokens are
consumed and the loop simply repeats. -/
def scanArrayLoopF : Nat → List JValue → St → Res
  | 0, _, _ => .oof
  | Nat.succ f, acc, s =>
    match scanIgnoreWhitespace s with
    | .error e => .err e
    | .ok (t, s') =>
      match t.ty with
      | .STRING | .NUMBER | .CURLY_BRACE_OPEN | .SQUARED_BRACE_OPEN
      | .TRUE | .FALSE | .NULL =>
        match scanValueF f (unscan s') with
        | .ok v s'' => scanArrayLoopF f (acc ++ [v]) s''
        | r => r
      | .SQUARED_BRACE_CLOSE => .ok (.arr acc) s'
      | _ => scanArrayLoopF f acc s'

/-- `Parser.scanObject` entry: expect `{`, then run the member loop. -/
def scanObjectF : Nat → St → Res
  | 0, _ => .oof
  | Nat.succ f, s =>
    match scan s with
    | .error e => .err e
    | .ok (t, s') =>
      if t.ty = .CURLY_BRACE_OPEN then scanObjectLoopF f [] s'
      else .err (.expectedObjectOpen t.ty)

/-- The member loop of `Parser.scanObject`: close brace returns, comma
continues, a string key must be followed by a colon and a value, and
any other token is an error. -/
def scanObjectLoopF : Nat → List (List Char × JValue) → St → Res
  | 0, _, _ => .oof
  | Nat.succ f, acc, s =>
    match scanIgnoreWhitespace s with
    | .error e => .err e
    | .ok (t, s') =>
      match t.ty with
      | .CURLY_BRACE_CLOSE => .ok (.obj acc) s'
      | .COMMA => scanObjectLoopF f acc s'
      | .STRING =>
        match parseString t.runes with
        | .err e => .err e
        | .panic => .panic
        | .ok key =>
          match scanIgnoreWhitespace s' with
          | .error e => .err e
          | .ok (t2, s2) =>
            if t2.ty = .COLON then
              match scanValueF f s2 with
              | .ok v s3 => scanObjectLoopF f (mapSet acc key v) s3
              | r => r
            else .err (.expectedColon t2.ty)
      | _ => .err (.unexpectedObjectToken t.ty)

end

/-- `Parser.Parse`: the top-level token must open an object or array. -/
def ParseF : Nat → St → Res
  | 0, _ => .oof
  | Nat.succ f, s =>
    match scan s with
    | .error e => .err e
    | .ok (t, s') =>
      match t.ty with
      | .CURLY_BRACE_OPEN => scanObjectF f (unscan s')
      | .SQUARED_BRACE_OPEN => scanArrayF f (unscan s')
      | _ => .err (.topLevel t.ty)

/-- Fresh parser state on an input. -/
def initSt (l : List Char) : St := ⟨l, none, false⟩

/-- `ParseString` in parser.go: parse from the start of the input.  The
fuel is generous in the input length; wherever the Go code terminates
the result is reached before the fuel runs out. -/
def ParseString (l : List Char) : Res :=
  ParseF (3 * l.length + 3) (initSt l)

end P1


namespace P2

/-- Token types of the index-based parser (`Type` in the js package). -/
inductive Ty where
  | OBJECT_OPEN | OBJECT_CLOSE | ARRAY_OPEN | ARRAY_CLOSE
  | STRING | NUMBER | COMMA | COLON | NULL | TRUE | FALSE
deriving DecidableEq

/-- A token of the index-based parser: a type and a length. -/
structure Token where
  ty : Ty
  len : Nat
deriving DecidableEq

/-- Errors of the index-based implementation, one constructor per
`errors.New`/propagated-`strconv` site in the Go code. -/
inductive Err where
  | unknownToken       -- getToken: "Unknown token"
  | couldNotParse      -- value: "Could not parse token"
  | invalidJson        -- object: "Invalid JSON" (missing colon)
  | shortUnicode       -- string: "Unexpected" (less than 4 runes after u)
  | hexParse           -- string: strconv.ParseUint error propagated
  | numberFormat       -- number: strconv.ParseFloat error propagated
deriving DecidableEq

/-- Result of `getToken`: a token (the cursor does not move), an error,
or a Go runtime panic (`Data[Index]` with the input exhausted). -/
inductive TRes where
  | ok (t : Token)
  | err (e : Err)
  | panic
deriving DecidableEq

/-- Result of the parsing functions: a value plus remaining input, an
error, a Go runtime panic, or out of fuel. -/
inductive Res (α : Type) where
  | ok (a : α) (rem : List Char)
  | err (e : Err)
  | panic
  | oof

/-- `Parser.skipWhitespace`: drop the maximal whitespace run (the
`WhiteSpace` regexp class), stopping at end of input. -/
def skipWhitespace : List Char → List Char
  | [] => []
  | c :: rs => if isWhitespace c then skipWhitespace rs else c :: rs

/-- `Parser.getToken`: `Data[Index]` panics when the input is
exhausted; otherwise single-character tokens, then the `NumberStart`
digit class, then 4/4/5-character lookahead for `null`/`true`/`false`. -/
def getToken (rem : List Char) : TRes :=
  match rem with
  | [] => .panic
  | c :: _ =>
    if c = lbrace then .ok ⟨.OBJECT_OPEN, 1⟩
    else if c = rbrace then .ok ⟨.OBJECT_CLOSE, 1⟩
    else if c = '[' then .ok ⟨.ARRAY_OPEN, 1⟩
    else if c = ']' then .ok ⟨.ARRAY_CLOSE, 1⟩
    else if c = '"' then .ok ⟨.STRING, 1⟩
    else if c = ',' then .ok ⟨.COMMA, 1⟩
    else if c = ':' then .ok ⟨.COLON, 1⟩
    else if isDigit c then .ok ⟨.NUMBER, 1⟩
    else if rem.length ≥ 4 && rem.take 4 = "null".toList then .ok ⟨.NULL, 4⟩
    else if rem.length ≥ 4 && rem.take 4 = "true".toList then .ok ⟨.TRUE, 4⟩
    else if rem.length ≥ 5 && rem.take 5 = "false".toList then .ok ⟨.FALSE, 5⟩
    else .err .unknownToken

/-- `Parser.number`: collect the maximal `NumberBody` run and hand it
to `strconv.ParseFloat`. -/
def number (rem : List Char) : Res ℚ :=
  let s := rem.takeWhile isNumBody
  match parseFloatQ s with
  | some q => .ok q (rem.dropWhile isNumBody)
  | none => .err .numberFormat

/-- Loop of `Parser.string` (after the opening quote).  Unlike the
scanner-based decoder, the escape letters `b f n r t` are kept as
two-character sequences, an unrecognized escape is silently dropped,
and the `hex` branch slices four runes (`sliceCurrent(4, true)`), a
Go slice-bounds panic when fewer than four remain. -/
def stringLoop : Bool → Bool → List Char → Res (List Char)
  | _, _, [] => .ok [] []
  | _, true, c1 :: c2 :: c3 :: c4 :: rest =>
    match parseHexNat [c1, c2, c3, c4] with
    | none => .err .hexParse
    | some code =>
      match stringLoop false false rest with
      | .ok s r => .ok (hexChar code :: s) r
      | r => r
  | _, true, _ => .panic
  | true, false, c :: rs =>
    if c = '\\' || c = '"' || c = '/' then
      match stringLoop false false rs with
      | .ok s r => .ok (c :: s) r
      | r => r
    else if c = 'b' || c = 'f' || c = 'n' || c = 'r' || c = 't' then
      match stringLoop false false rs with
      | .ok s r => .ok ('\\' :: c :: s) r
      | r => r
    else if c = 'u' then
      if (c :: rs).length < 4 then .err .shortUnicode
      else stringLoop false true rs
    else stringLoop false false rs
  | false, false, c :: rs =>
    if c = '"' then .ok [] rs
    else if c = '\\' then stringLoop true false rs
    else
      match stringLoop false false rs with
      | .ok s r => .ok (c :: s) r
      | r => r

/-- `Parser.string`: skip the opening quote and run the loop. -/
def string (rem : List Char) : Res (List Char) :=
  stringLoop false false (rem.drop 1)

mutual

/-- `Parser.value`: skip whitespace and dispatch on the next token. -/
def valueF : Nat → List Char → Res JValue
  | 0, _ => .oof
  | Nat.succ f, rem =>
    let r := skipWhitespace rem
    match getToken r with
    | .err e => .err e
    | .panic => .panic
    | .ok t =>
      match t.ty with
      | .OBJECT_OPEN => objectF f r
      | .ARRAY_OPEN => arrayF f r
      | .STRING =>
        match string r with
        | .ok s r2 => .ok (.str s) r2
        | .err e => .err e
        | .panic => .panic
        | .oof => .oof
      | .NUMBER =>
        match number r with
        | .ok q r2 => .ok (.num q) r2
        | .err e => .err e
        | .panic => .panic
        | .oof => .oof
      | .NULL => .ok .null (r.drop 4)
      | .FALSE => .ok (.bool false) (r.drop 5)
      | .TRUE => .ok (.bool true) (r.drop 4)
      | _ => .err .couldNotParse

/-- `Parser.object`: skip the `{` and run the member loop. -/
def objectF : Nat → List Char → Res JValue
  | 0, _ => .oof
  | Nat.succ f, rem => objectLoopF f [] (rem.drop 1)

/-- The member loop of `Parser.object`: close brace returns, comma is
consumed, and any other token is handed to `Parser.string` as a key
(without checking that it is a string token), then colon and value. -/
def objectLoopF : Nat → List (List Char × JValue) → List Char → Res JValue
  | 0, _, _ => .oof
  | Nat.succ f, acc, rem =>
    let r := skipWhitespace rem
    match getToken r with
    | .err e => .err e
    | .panic => .panic
    | .ok t =>
      match t.ty with
      | .OBJECT_CLOSE => .ok (.obj acc) (r.drop 1)
      | .COMMA => objectLoopF f acc (r.drop 1)
      | _ =>
        match string r with
        | .err e => .err e
        | .panic => .panic
        | .oof => .oof
        | .ok key r2 =>
          let r3 := skipWhitespace r2
          match getToken r3 with
          | .err e => .err e
          | .panic => .panic
          | .ok t2 =>
            if t2.ty = .COLON then
              match valueF f (skipWhitespace (r3.drop 1)) with
              | .ok v r4 => objectLoopF f (mapSet acc key v) r4
              | .err e => .err e
              | .panic => .panic
              | .oof => .oof
            else .err .invalidJson

/-- `Parser.array`: skip the `[` and run the member loop. -/
def arrayF : Nat → List Char → Res JValue
  | 0, _ => .oof
  | Nat.succ f, rem => arrayLoopF f [] (rem.drop 1)

/-- The member loop of `Parser.array`: close bracket returns, comma is
consumed, anything else is parsed as a value and appended. -/
def arrayLoopF : Nat → List JValue → List Char → Res JValue
  | 0, _, _ => .oof
  | Nat.succ f, acc, rem =>
    let r := skipWhitespace rem
    match getToken r with
    | .err e => .err e
    | .panic => .panic
    | .ok t =>
      match t.ty with
      | .ARRAY_CLOSE => .ok (.arr acc) (r.drop 1)
      | .COMMA => arrayLoopF f acc (r.drop 1)
      | _ =>
        match valueF f r with
        | .ok v r2 => arrayLoopF f (acc ++ [v]) r2
        | .err e => .err e
        | .panic => .panic
        | .oof => .oof

end

/-- `Parser.Parse`/`Parse` in the js package: parse a value from the
start of the input.  The fuel is generous in the input length;
wherever the Go code terminates the result is reached before the fuel
runs out. -/
def Parse (l : List Char) : Res JValue :=
  valueF (3 * l.length + 3) l

end P2

/-- Decimal digit character for a digit value. -/
def digitCh (d : Nat) : Char := Char.ofNat (48 + d)

/-- Decimal digits of a number, most significant first, with explicit
recursion fuel. -/
def natDigits : Nat → Nat → List Char
  | 0, _ => []
  | Nat.succ f, n =>
    if n < 10 then [digitCh n] else natDigits f (n / 10) ++ [digitCh (n % 10)]

/-- Canonical decimal rendering of a natural number. -/
def renderNat (n : Nat) : List Char := natDigits (n + 1) n

/-- A character safe inside a canonically rendered string literal: not
a quote, not a backslash, not a control character. -/
def goodChar (c : Char) : Bool :=
  !(c = '"') && !(c = '\\') && !isControl c

/-- A string of safe characters. -/
def goodStr (s : List Char) : Bool :=
  s.all goodChar

/-- Key lookup in the association-list view of a Go map. -/
def hasKey (s : List Char) : List (List Char × JValue) → Bool
  | [] => false
  | (k, _) :: rest => k = s || hasKey s rest

/-- True when the remaining input cannot extend a number token: empty,
or its first character is outside the `NumberBody` class. -/
def numSafe (rest : List Char) : Bool :=
  match rest with
  | [] => true
  | c :: _ => !isNumBody c

/-- True when the remaining input cannot extend the final token of the
scanner-based lexer for the given value: digits or `.` extend a number
token, lowercase letters extend a `null`/`true`/`false` word. -/
def p1Safe (v : JValue) (rest : List Char) : Bool :=
  match rest with
  | [] => true
  | c :: _ =>
    match v with
    | .num _ => !isDigit c && !(c = '.')
    | .null => !isLowerCaseLetter c
    | .bool _ => !isLowerCaseLetter c
    | _ => true

/-- Container values (objects and arrays). -/
def isContainer (v : JValue) : Bool :=
  match v with
  | .arr _ => true
  | .obj _ => true
  | _ => false

mutual

/-- Canonical rendering relation: `GoodRender k t v` says `t` is the
canonical JSON rendering (no insignificant whitespace, strings over
quote-, backslash- and control-free characters, numbers nonnegative
integers strictly below the `float64` overflow threshold — beyond it
Go's `ParseFloat` fails with `ErrRange` and both parsers error out —
object keys distinct) of the value `v`, and `k` bounds the parser
fuel its parse consumes. -/
inductive GoodRender : Nat → List Char → JValue → Prop where
  | null : GoodRender 1 ('n' :: 'u' :: 'l' :: 'l' :: []) .null
  | btrue : GoodRender 1 ('t' :: 'r' :: 'u' :: 'e' :: []) (.bool true)
  | bfalse : GoodRender 1 ('f' :: 'a' :: 'l' :: 's' :: 'e' :: []) (.bool false)
  | num (m : Nat) : m < 2 ^ 1024 - 2 ^ 970 →
      GoodRender 1 (renderNat m) (.num (m : ℚ))
  | str {s : List Char} : goodStr s = true →
      GoodRender 1 ('"' :: s ++ ['"']) (.str s)
  | arr {kl : Nat} {tl : List Char} {vs : List JValue} :
      GoodRenderL kl tl vs → GoodRender (kl + 2) ('[' :: tl ++ [']']) (.arr vs)
  | obj {kl : Nat} {tl : List Char} {ps : List (List Char × JValue)} :
      GoodRenderO kl tl ps → GoodRender (kl + 2) (lbrace :: tl ++ [rbrace]) (.obj ps)

/-- Rendering relation for comma-separated array member lists. -/
inductive GoodRenderL : Nat → List Char → List JValue → Prop where
  | nil : GoodRenderL 1 [] []
  | single {k : Nat} {t : List Char} {v : JValue} :
      GoodRender k t v → GoodRenderL (k + 2) t [v]
  | cons {k : Nat} {t : List Char} {v v' : JValue} {kl : Nat} {tl : List Char}
      {vs : List JValue} : GoodRender k t v → GoodRenderL kl tl (v' :: vs) →
      GoodRenderL (k + kl + 2) (t ++ ',' :: tl) (v :: v' :: vs)

/-- Rendering relation for comma-separated object member lists, with
keys distinct. -/
inductive GoodRenderO : Nat → List Char → List (List Char × JValue) → Prop where
  | nil : GoodRenderO 1 [] []
  | single {s : List Char} {k : Nat} {t : List Char} {v : JValue} :
      goodStr s = true → GoodRender k t v →
      GoodRenderO (k + 2) ('"' :: s ++ '"' :: ':' :: t) [(s, v)]
  | cons {s : List Char} {k : Nat} {t : List Char} {v : JValue} {kl : Nat}
      {tl : List Char} {p : List Char × JValue} {ps : List (List Char × JValue)} :
      goodStr s = true → GoodRender k t v → GoodRenderO kl tl (p :: ps) →
      hasKey s (p :: ps) = false →
      GoodRenderO (k + kl + 2) (('"' :: s ++ '"' :: ':' :: t) ++ ',' :: tl)
        ((s, v) :: p :: ps)

end

section ClaimTheorems

theorem digitsVal_append_single (xs : List Char) (c : Char) :
    digitsVal (xs ++ [c]) = 10 * digitsVal xs + (c.toNat - 48) := by
  simp [digitsVal, List.foldl_append]

theorem digitCh_isDigit {d : Nat} (h : d < 10) :
    isDigit (digitCh d) = true ∧ (digitCh d).toNat - 48 = d := by
  interval_cases d <;> exact ⟨by decide, by decide⟩

theorem natDigits_spec : ∀ f n, n ≤ f →
    (∀ c ∈ natDigits (f + 1) n, isDigit c = true) ∧
    natDigits (f + 1) n ≠ [] ∧ digitsVal (natDigits (f + 1) n) = n := by
  intro f
  induction f with
  | zero =>
    intro n hn
    interval_cases n
    exact ⟨by decide, by decide, by decide⟩
  | succ f ih =>
    intro n hn
    by_cases h10 : n < 10
    · refine ⟨?_, ?_, ?_⟩
      · intro c hc
        simp only [natDigits, if_pos h10, List.mem_singleton] at hc
        subst hc
        exact (digitCh_isDigit h10).1
      · simp [natDigits, if_pos h10]
      · simp only [natDigits, if_pos h10, digitsVal, List.foldl]
        have := (digitCh_isDigit h10).2
        omega
    · have hdiv : n / 10 ≤ f := by
        have : n / 10 < n := Nat.div_lt_self (by omega) (by omega)
        omega
      obtain ⟨ihd, ihne, ihval⟩ := ih (n / 10) hdiv
      have hmod : n % 10 < 10 := Nat.mod_lt _ (by omega)
      refine ⟨?_, ?_, ?_⟩
      · intro c hc
        simp only [natDigits, if_neg h10, List.mem_append, List.mem_singleton] at hc
        rcases hc with hc | hc
        · exact ihd c hc
        · subst hc; exact (digitCh_isDigit hmod).1
      · simp [natDigits, if_neg h10]
      · have hshape : natDigits (f + 1 + 1) n =
            natDigits (f + 1) (n / 10) ++ [digitCh (n % 10)] := by
          simp [natDigits, if_neg h10]
        rw [hshape, digitsVal_append_single, ihval]
        have := (digitCh_isDigit hmod).2
        omega

theorem renderNat_spec (n : Nat) :
    (∀ c ∈ renderNat n, isDigit c = true) ∧
    renderNat n ≠ [] ∧ digitsVal (renderNat n) = n :=
  natDigits_spec n n le_rfl

/-- Facts about an ASCII digit character that drive the token
classification of both parsers. -/
theorem digit_char_facts (c : Char) (h : isDigit c = true) :
    c ≠ '-' ∧ c ≠ '+' ∧ c ≠ '.' ∧ c ≠ 'e' ∧ c ≠ 'E' ∧ isNumBody c = true ∧
    isWhitespace c = false ∧ c ≠ lbrace ∧ c ≠ rbrace ∧ c ≠ '[' ∧ c ≠ ']' ∧
    c ≠ '"' ∧ c ≠ ',' ∧ c ≠ ':' ∧ c ≠ '\\' ∧ isLowerCaseLetter c = false := by
  have hbnd : ('0' ≤ c ∧ c ≤ '9') := by
    simpa [isDigit, Bool.and_eq_true, decide_eq_true_iff] using h
  have h1 : 48 ≤ c.toNat := hbnd.1
  have h2 : c.toNat ≤ 57 := hbnd.2
  have hc : c = Char.ofNat c.toNat := (Char.ofNat_toNat c).symm
  generalize hg : c.toNat = k at h1 h2
  rw [hg] at hc
  subst hc
  interval_cases k <;> exact (by decide)

theorem goodChar_facts (c : Char) (h : goodChar c = true) :
    (¬ c = '"') ∧ (¬ c = '\\') ∧ isControl c = false := by
  simp only [goodChar, Bool.and_eq_true, Bool.not_eq_true', decide_eq_false_iff_not] at h
  exact ⟨h.1.1, h.1.2, h.2⟩

theorem goodStr_cons (c : Char) (s : List Char) (h : goodStr (c :: s) = true) :
    goodChar c = true ∧ goodStr s = true := by
  simpa [goodStr, Bool.and_eq_true] using h

theorem mapSet_append (acc : List (List Char × JValue)) (k : List Char) (v : JValue)
    (h : hasKey k acc = false) : mapSet acc k v = acc ++ [(k, v)] := by
  induction acc with
  | nil => rfl
  | cons p rest ih =>
    obtain ⟨k', v'⟩ := p
    simp only [hasKey, Bool.or_eq_false_iff, decide_eq_false_iff_not] at h
    simp [mapSet, h.1, ih h.2]

theorem hasKey_append_false (kk s : List Char) (v : JValue)
    (acc : List (List Char × JValue)) (h1 : hasKey kk acc = false) (h2 : kk ≠ s) :
    hasKey kk (acc ++ [(s, v)]) = false := by
  induction acc with
  | nil =>
    simp [hasKey]
    exact fun hh => h2 hh.symm
  | cons p rest ih =>
    obtain ⟨k', v'⟩ := p
    simp only [hasKey, Bool.or_eq_false_iff, decide_eq_false_iff_not] at h1
    simp [hasKey, h1.1, ih h1.2]

theorem hasKey_false_forall (s : List Char) (l : List (List Char × JValue))
    (h : hasKey s l = false) : ∀ p ∈ l, p.1 ≠ s := by
  induction l with
  | nil => simp
  | cons p rest ih =>
    obtain ⟨k', v'⟩ := p
    simp only [hasKey, Bool.or_eq_false_iff, decide_eq_false_iff_not] at h
    intro q hq
    rcases List.mem_cons.mp hq with hq1 | hq1
    · subst hq1; exact h.1
    · exact ih h.2 q hq1

/-- The plain-character string loop of the index-based decoder:
quote-, backslash- and control-free characters are collected verbatim
up to the closing quote. -/
theorem stringLoop_plain (s : List Char) (rest : List Char) (h : goodStr s = true) :
    P2.stringLoop false false (s ++ '"' :: rest) = .ok s rest := by
  induction s with
  | nil => rfl
  | cons c s' ih =>
    obtain ⟨hgc, hgs⟩ := goodStr_cons c s' h
    obtain ⟨hq, hbs, _⟩ := goodChar_facts c hgc
    have ih' := ih hgs
    simp only [List.cons_append, P2.stringLoop, if_neg hq, if_neg hbs, List.append_eq, ih']

theorem takeWhile_all_append (p : Char → Bool) (t rest : List Char)
    (ht : ∀ c ∈ t, p c = true)
    (hr : ∀ c, rest.head? = some c → p c = false) :
    (t ++ rest).takeWhile p = t ∧ (t ++ rest).dropWhile p = rest := by
  induction t with
  | nil =>
    cases rest with
    | nil => simp
    | cons c rs =>
      have := hr c rfl
      simp [List.takeWhile, List.dropWhile, this]
  | cons a t' ih =>
    have ha := ht a (List.mem_cons_self a t')
    have ih' := ih (fun c hc => ht c (List.mem_cons_of_mem a hc))
    simp [List.takeWhile, List.dropWhile, ha, ih'.1, ih'.2]

theorem parseFloatQ_digits (t : List Char) (ht : ∀ c ∈ t, isDigit c = true)
    (hne : t ≠ []) (hrange : digitsVal t < 2 ^ 1024 - 2 ^ 970) :
    parseFloatQ t = some (mkRat (digitsVal t) 1) := by
  cases t with
  | nil => exact absurd rfl hne
  | cons c t' =>
    have hc := ht c (List.mem_cons_self c t')
    obtain ⟨hm, hp, hdot, he, hE, _⟩ := digit_char_facts c hc
    have htake : (c :: t').takeWhile isDigit = c :: t' := by
      have := takeWhile_all_append isDigit (c :: t') [] ht (by simp)
      simpa using this.1
    have hdrop : (c :: t').dropWhile isDigit = [] := by
      have := takeWhile_all_append isDigit (c :: t') [] ht (by simp)
      simpa using this.2
    simp only [parseFloatQ, if_neg hm, if_neg hp]
    simp [htake, hdrop, hm, hp, List.takeWhile, List.dropWhile, hc, inFloat64Range, hrange]
    refine ⟨?_, rfl⟩
    simpa [digitsVal] using hrange

/-- Token classification of the index-based parser at a `null` head. -/
theorem getToken_null (X : List Char) :
    P2.getToken ('n' :: 'u' :: 'l' :: 'l' :: X) = .ok ⟨.NULL, 4⟩ := by
  simp +decide [P2.getToken, List.take, Nat.le_add_left,
    show ∀ m, 4 ≤ m + 4 from fun m => by omega]

/-- Token classification of the index-based parser at a `true` head. -/
theorem getToken_true (X : List Char) :
    P2.getToken ('t' :: 'r' :: 'u' :: 'e' :: X) = .ok ⟨.TRUE, 4⟩ := by
  simp +decide [P2.getToken, List.take,
    show ∀ m, 4 ≤ m + 4 from fun m => by omega]

/-- Token classification of the index-based parser at a `false` head. -/
theorem getToken_false (X : List Char) :
    P2.getToken ('f' :: 'a' :: 'l' :: 's' :: 'e' :: X) = .ok ⟨.FALSE, 5⟩ := by
  simp +decide [P2.getToken, List.take,
    show ∀ m, 4 ≤ m + 5 from fun m => by omega,
    show ∀ m, 5 ≤ m + 5 from fun m => by omega]

/-- Token classification of the index-based parser at a digit head. -/
theorem getToken_digit (c : Char) (X : List Char) (h : isDigit c = true) :
    P2.getToken (c :: X) = .ok ⟨.NUMBER, 1⟩ := by
  obtain ⟨_, _, _, _, _, _, _, hlb, hrb, hlk, hrk, hq, hcm, hco, _⟩ := digit_char_facts c h
  simp [P2.getToken, hlb, hrb, hlk, hrk, hq, hcm, hco, h]

/-- `getToken` at the concrete single-character heads. -/
theorem getToken_quote (X : List Char) : P2.getToken ('"' :: X) = .ok ⟨.STRING, 1⟩ := rfl

theorem getToken_lbrack (X : List Char) : P2.getToken ('[' :: X) = .ok ⟨.ARRAY_OPEN, 1⟩ := rfl

theorem getToken_lbrace (X : List Char) : P2.getToken (lbrace :: X) = .ok ⟨.OBJECT_OPEN, 1⟩ := rfl

/-- Every canonically rendered value starts with a non-whitespace
character that classifies as a token able to start a value (never a
close delimiter or comma). -/
theorem gr_head {k : Nat} {t : List Char} {v : JValue} (h : GoodRender k t v)
    (X : List Char) :
    P2.skipWhitespace (t ++ X) = t ++ X ∧
    ∃ tok, P2.getToken (t ++ X) = .ok tok ∧
      tok.ty ≠ .ARRAY_CLOSE ∧ tok.ty ≠ .COMMA ∧ tok.ty ≠ .OBJECT_CLOSE := by
  cases h with
  | null => exact ⟨rfl, ⟨.NULL, 4⟩, getToken_null X, by decide, by decide, by decide⟩
  | btrue => exact ⟨rfl, ⟨.TRUE, 4⟩, getToken_true X, by decide, by decide, by decide⟩
  | bfalse => exact ⟨rfl, ⟨.FALSE, 5⟩, getToken_false X, by decide, by decide, by decide⟩
  | num m hm =>
    obtain ⟨hdig, hne, _⟩ := renderNat_spec m
    cases hr : renderNat m with
    | nil => exact absurd hr hne
    | cons c t'' =>
      have hc : isDigit c = true := hdig c (hr ▸ List.mem_cons_self c t'')
      have hws : isWhitespace c = false := (digit_char_facts c hc).2.2.2.2.2.2.1
      refine ⟨by simp [P2.skipWhitespace, hws], ⟨.NUMBER, 1⟩, getToken_digit c _ hc,
        by decide, by decide, by decide⟩
  | str hs =>
    refine ⟨?_, ⟨.STRING, 1⟩, ?_, by decide, by decide, by decide⟩
    · simp +decide [List.cons_append, P2.skipWhitespace]
    · simp only [List.cons_append, List.append_assoc]
      exact getToken_quote _
  | arr hl =>
    refine ⟨?_, ⟨.ARRAY_OPEN, 1⟩, ?_, by decide, by decide, by decide⟩
    · simp +decide [List.cons_append, P2.skipWhitespace]
    · simp only [List.cons_append, List.append_assoc]
      exact getToken_lbrack _
  | obj ho =>
    refine ⟨?_, ⟨.OBJECT_OPEN, 1⟩, ?_, by decide, by decide, by decide⟩
    · simp +decide [List.cons_append, P2.skipWhitespace]
    · simp only [List.cons_append, List.append_assoc]
      exact getToken_lbrace _

/-- One iteration of the array member loop at a close bracket. -/
theorem arrayLoopF_close (f : Nat) (acc : List JValue) (rest : List Char) :
    P2.arrayLoopF (Nat.succ f) acc (']' :: rest) = .ok (.arr acc) rest := rfl

/-- One iteration of the array member loop at a comma. -/
theorem arrayLoopF_comma (f : Nat) (acc : List JValue) (rem : List Char) :
    P2.arrayLoopF (Nat.succ f) acc (',' :: rem) = P2.arrayLoopF f acc rem := rfl

/-- One iteration of the array member loop at a token that starts a
value: the loop recurses into `value` and appends the member. -/
theorem arrayLoopF_value_step (f : Nat) (acc : List JValue) (rem : List Char)
    (hsws : P2.skipWhitespace rem = rem) (tok : P2.Token)
    (hgt : P2.getToken rem = .ok tok)
    (h1 : tok.ty ≠ .ARRAY_CLOSE) (h2 : tok.ty ≠ .COMMA) :
    P2.arrayLoopF (Nat.succ f) acc rem =
      (match P2.valueF f rem with
       | .ok v r2 => P2.arrayLoopF f (acc ++ [v]) r2
       | .err e => .err e
       | .panic => .panic
       | .oof => .oof) := by
  obtain ⟨ty, len⟩ := tok
  cases ty <;> simp_all [P2.arrayLoopF]

/-- One iteration of the object member loop at a close brace. -/
theorem objectLoopF_close (f : Nat) (acc : List (List Char × JValue)) (rest : List Char) :
    P2.objectLoopF (Nat.succ f) acc (rbrace :: rest) = .ok (.obj acc) rest := rfl

/-- One iteration of the object member loop at a comma. -/
theorem objectLoopF_comma (f : Nat) (acc : List (List Char × JValue)) (rem : List Char) :
    P2.objectLoopF (Nat.succ f) acc (',' :: rem) = P2.objectLoopF f acc rem := rfl

theorem getToken_colon (X : List Char) : P2.getToken (':' :: X) = .ok ⟨.COLON, 1⟩ := rfl

/-- One iteration of the object member loop at a canonically rendered
member `"s":t` — decode the key, expect the colon, recurse into
`value`, and insert the binding. -/
theorem objectLoopF_member (f : Nat) (acc : List (List Char × JValue)) (s : List Char)
    (hs : goodStr s = true) (t X : List Char) :
    P2.objectLoopF (Nat.succ f) acc (('"' :: s ++ '"' :: ':' :: t) ++ X) =
      (match P2.valueF f (P2.skipWhitespace (t ++ X)) with
       | .ok v r4 => P2.objectLoopF f (mapSet acc s v) r4
       | .err e => .err e
       | .panic => .panic
       | .oof => .oof) := by
  have hsl := stringLoop_plain s (':' :: (t ++ X)) hs
  simp +decide [P2.objectLoopF, P2.string, P2.skipWhitespace, getToken_quote,
    getToken_colon, hsl, List.cons_append, List.append_assoc]

/-- Canonically rendered values parse: the fuel-indexed statement for
`value`, the array member loop, and the object member loop, by
induction on the fuel bound. -/
theorem renders (K : Nat) :
    (∀ k t v, k ≤ K → GoodRender k t v → ∀ n rest,
        (∀ q, v = JValue.num q → numSafe rest = true) →
        P2.valueF (n + k) (t ++ rest) = .ok v rest) ∧
    (∀ k tl vs, k ≤ K → GoodRenderL k tl vs → ∀ n rest acc,
        P2.arrayLoopF (n + k) acc (tl ++ ']' :: rest) = .ok (.arr (acc ++ vs)) rest) ∧
    (∀ k tl ps, k ≤ K → GoodRenderO k tl ps → ∀ n rest acc,
        (∀ p ∈ ps, hasKey p.1 acc = false) →
        P2.objectLoopF (n + k) acc (tl ++ rbrace :: rest) = .ok (.obj (acc ++ ps)) rest) := by
  induction K with
  | zero =>
    refine ⟨?_, ?_, ?_⟩
    · intro k t v hk h
      have : k = 0 := by omega
      subst this
      cases h
    · intro k tl vs hk h
      have : k = 0 := by omega
      subst this
      cases h
    · intro k tl ps hk h
      have : k = 0 := by omega
      subst this
      cases h
  | succ K IH =>
    obtain ⟨IHv, IHl, IHo⟩ := IH
    refine ⟨?_, ?_, ?_⟩
    · -- value
      intro k t v hk h n rest hsafe
      cases h with
      | null =>
        show P2.valueF (Nat.succ n) _ = _
        simp +decide [P2.valueF, P2.skipWhitespace, getToken_null, List.drop]
      | btrue =>
        show P2.valueF (Nat.succ n) _ = _
        simp +decide [P2.valueF, P2.skipWhitespace, getToken_true, List.drop]
      | bfalse =>
        show P2.valueF (Nat.succ n) _ = _
        simp +decide [P2.valueF, P2.skipWhitespace, getToken_false, List.drop]
      | num m hm =>
        obtain ⟨hdig, hne, hval⟩ := renderNat_spec m
        have hbody : ∀ c ∈ renderNat m, isNumBody c = true := fun c hc =>
          (digit_char_facts c (hdig c hc)).2.2.2.2.2.1
        have hrest : ∀ c, rest.head? = some c → isNumBody c = false := by
          intro c hhd
          have hns := hsafe (m : ℚ) rfl
          cases rest with
          | nil => simp at hhd
          | cons c0 rs =>
            simp only [List.head?] at hhd
            injection hhd with hh
            subst hh
            simpa [numSafe] using hns
        obtain ⟨htake, hdrop⟩ := takeWhile_all_append isNumBody (renderNat m) rest hbody hrest
        have hfloat := parseFloatQ_digits (renderNat m) hdig hne (by rw [hval]; exact hm)
        cases hr : renderNat m with
        | nil => exact absurd hr hne
        | cons c t'' =>
          have hc : isDigit c = true := hdig c (hr ▸ List.mem_cons_self c t'')
          have hws : isWhitespace c = false := (digit_char_facts c hc).2.2.2.2.2.2.1
          rw [hr] at htake hdrop hfloat
          simp only [List.cons_append] at htake hdrop
          show P2.valueF (Nat.succ n) _ = _
          simp +decide [P2.valueF, P2.skipWhitespace, hws, getToken_digit c _ hc,
            P2.number, List.cons_append, htake, hdrop, hfloat, hr ▸ hval,
            Rat.mkRat_one, Int.cast_natCast]
      | str hs =>
        have hsl := stringLoop_plain _ rest hs
        show P2.valueF (Nat.succ n) _ = _
        simp +decide [P2.valueF, P2.skipWhitespace, P2.string, getToken_quote, hsl,
          List.cons_append, List.append_assoc]
      | @arr kl tl vs hl =>
        have harr := IHl kl tl vs (by omega) hl n rest []
        show P2.valueF (Nat.succ (Nat.succ (n + kl))) _ = _
        simp +decide [P2.valueF, P2.arrayF, P2.skipWhitespace, getToken_lbrack,
          List.cons_append, List.append_assoc, harr]
      | @obj kl tl ps ho =>
        have hobj := IHo kl tl ps (by omega) ho n rest [] (by simp [hasKey])
        show P2.valueF (Nat.succ (Nat.succ (n + kl))) _ = _
        simp +decide [P2.valueF, P2.objectF, P2.skipWhitespace, getToken_lbrace,
          List.cons_append, List.append_assoc, hobj]
    · -- array member loop
      intro k tl vs hk h n rest acc
      cases h with
      | nil =>
        simpa using arrayLoopF_close n acc rest
      | @single k' _ v hv =>
        obtain ⟨hsws, tok, hgt, hne1, hne2, _⟩ := gr_head hv (']' :: rest)
        rw [show n + (k' + 2) = Nat.succ (n + k' + 1) by omega,
          arrayLoopF_value_step _ _ _ hsws tok hgt hne1 hne2]
        have hv' := IHv k' tl v (by omega) hv (n + 1) (']' :: rest)
          (by intro q hq; simp +decide [numSafe])
        rw [show n + k' + 1 = (n + 1) + k' by omega, hv']
        show P2.arrayLoopF ((n + 1) + k') (acc ++ [v]) (']' :: rest) = _
        rw [show (n + 1) + k' = Nat.succ (n + k') by omega, arrayLoopF_close]
      | @cons k' t v v' kl' tl' vs' hv hl' =>
        obtain ⟨hsws, tok, hgt, hne1, hne2, _⟩ := gr_head hv (',' :: tl' ++ ']' :: rest)
        have hshape : (t ++ ',' :: tl') ++ ']' :: rest = t ++ (',' :: tl' ++ ']' :: rest) := by
          simp
        rw [hshape, show n + (k' + kl' + 2) = Nat.succ (n + k' + kl' + 1) by omega,
          arrayLoopF_value_step _ _ _ hsws tok hgt hne1 hne2]
        have hv' := IHv k' t v (by omega) hv (n + kl' + 1) (',' :: tl' ++ ']' :: rest)
          (by intro q hq; simp +decide [numSafe])
        rw [show n + k' + kl' + 1 = (n + kl' + 1) + k' by omega, hv']
        show P2.arrayLoopF ((n + kl' + 1) + k') (acc ++ [v]) (',' :: (tl' ++ ']' :: rest)) = _
        rw [show (n + kl' + 1) + k' = Nat.succ (n + k' + kl') by omega, arrayLoopF_comma]
        have hl'' := IHl kl' tl' (v' :: vs') (by omega) hl' (n + k') rest (acc ++ [v])
        rw [show n + k' + kl' = (n + k') + kl' by omega, hl'']
        simp
    · -- object member loop
      intro k tl ps hk h n rest acc hfresh
      cases h with
      | nil =>
        simpa using objectLoopF_close n acc rest
      | @single s k' t v hs hv =>
        obtain ⟨hsws, _, _, _, _, _⟩ := gr_head hv (rbrace :: rest)
        rw [show n + (k' + 2) = Nat.succ (n + k' + 1) by omega,
          objectLoopF_member _ _ _ hs _ _, hsws]
        have hv' := IHv k' t v (by omega) hv (n + 1) (rbrace :: rest)
          (by intro q hq; simp +decide [numSafe])
        rw [show n + k' + 1 = (n + 1) + k' by omega, hv']
        show P2.objectLoopF ((n + 1) + k') (mapSet acc s v) (rbrace :: rest) = _
        rw [mapSet_append acc s v (hfresh (s, v) (List.mem_cons_self _ _))]
        rw [show (n + 1) + k' = Nat.succ (n + k') by omega, objectLoopF_close]
      | @cons s k' t v kl' tl' p' ps' hs hv ho' hknew =>
        obtain ⟨hsws, _, _, _, _, _⟩ := gr_head hv (',' :: tl' ++ rbrace :: rest)
        have hshape : (('"' :: s ++ '"' :: ':' :: t) ++ ',' :: tl') ++ rbrace :: rest =
            ('"' :: s ++ '"' :: ':' :: t) ++ (',' :: tl' ++ rbrace :: rest) := by
          simp
        rw [hshape, show n + (k' + kl' + 2) = Nat.succ (n + k' + kl' + 1) by omega,
          objectLoopF_member _ _ _ hs _ _, hsws]
        have hv' := IHv k' t v (by omega) hv (n + kl' + 1) (',' :: tl' ++ rbrace :: rest)
          (by intro q hq; simp +decide [numSafe])
        rw [show n + k' + kl' + 1 = (n + kl' + 1) + k' by omega, hv']
        show P2.objectLoopF ((n + kl' + 1) + k') (mapSet acc s v) (',' :: (tl' ++ rbrace :: rest)) = _
        rw [mapSet_append acc s v (hfresh (s, v) (List.mem_cons_self _ _))]
        rw [show (n + kl' + 1) + k' = Nat.succ (n + k' + kl') by omega, objectLoopF_comma]
        have hfresh' : ∀ q ∈ (p' :: ps'), hasKey q.1 (acc ++ [(s, v)]) = false := by
          intro q hq
          have hq1 : hasKey q.1 acc = false := hfresh q (List.mem_cons_of_mem _ hq)
          have hq2 : q.1 ≠ s := hasKey_false_forall s (p' :: ps') hknew q hq
          exact hasKey_append_false q.1 s v acc hq1 hq2
        have ho'' := IHo kl' tl' (p' :: ps') (by omega) ho' (n + k') rest
          (acc ++ [(s, v)]) hfresh'
        rw [show n + k' + kl' = (n + k') + kl' by omega, ho'']
        simp

/-- The fuel index of a rendering derivation is bounded by the text
length, so the fuel `Parse` allots always suffices. -/
theorem gr_cost (K : Nat) :
    (∀ k t v, k ≤ K → GoodRender k t v → k ≤ 3 * t.length) ∧
    (∀ k tl vs, k ≤ K → GoodRenderL k tl vs → k ≤ 3 * tl.length + 4) ∧
    (∀ k tl ps, k ≤ K → GoodRenderO k tl ps → k ≤ 3 * tl.length + 4) := by
  induction K with
  | zero =>
    refine ⟨?_, ?_, ?_⟩ <;>
      · intro k a b hk h
        have : k = 0 := by omega
        subst this
        cases h
  | succ K IH =>
    obtain ⟨IHv, IHl, IHo⟩ := IH
    refine ⟨?_, ?_, ?_⟩
    · intro k t v hk h
      cases h with
      | null => simp
      | btrue => simp
      | bfalse => simp
      | num m hm =>
        obtain ⟨_, hne, _⟩ := renderNat_spec m
        cases hr : renderNat m with
        | nil => exact absurd hr hne
        | cons c t'' => simp [hr]; omega
      | str hs => simp; omega
      | @arr kl tl vs hl =>
        have := IHl kl tl vs (by omega) hl
        simp
        omega
      | @obj kl tl ps ho =>
        have := IHo kl tl ps (by omega) ho
        simp
        omega
    · intro k tl vs hk h
      cases h with
      | nil => simp
      | @single k' _ v hv =>
        have := IHv k' tl v (by omega) hv
        omega
      | @cons k' t v v' kl' tl' vs' hv hl' =>
        have h1 := IHv k' t v (by omega) hv
        have h2 := IHl kl' tl' (v' :: vs') (by omega) hl'
        simp
        omega
    · intro k tl ps hk h
      cases h with
      | nil => simp
      | @single s k' t v hs hv =>
        have := IHv k' t v (by omega) hv
        simp
        omega
      | @cons s k' t v kl' tl' p' ps' hs hv ho' hknew =>
        have h1 := IHv k' t v (by omega) hv
        have h2 := IHo kl' tl' (p' :: ps') (by omega) ho'
        simp
        omega

/-- Canonically rendered values parse to themselves with arbitrary
trailing input, in the index-based implementation. -/
theorem parse_render (k : Nat) (t : List Char) (v : JValue) (rest : List Char)
    (h : GoodRender k t v)
    (hsafe : ∀ q, v = JValue.num q → numSafe rest = true) :
    P2.Parse (t ++ rest) = .ok v rest := by
  have hcost : k ≤ 3 * t.length := (gr_cost k).1 k t v le_rfl h
  have heval := (renders k).1 k t v le_rfl h (3 * (t ++ rest).length + 3 - k) rest hsafe
  rw [P2.Parse, show 3 * (t ++ rest).length + 3 = (3 * (t ++ rest).length + 3 - k) + k by
    simp [List.length_append]; omega]
  exact heval

/-- The scanner-based top level on a `{`-headed input: scan the brace,
push it back, and enter the object loop. -/
theorem P1_ParseF_openBrace (f : Nat) (rem : List Char) :
    P1.ParseF (f + 3) (P1.initSt (lbrace :: rem)) =
      P1.scanObjectLoopF (f + 1) [] ⟨rem, some ⟨.CURLY_BRACE_OPEN, [lbrace]⟩, false⟩ := by
  have e1 : P1.Scan (lbrace :: rem) = .ok ⟨.CURLY_BRACE_OPEN, [lbrace]⟩ rem := by
    simp +decide [P1.Scan]
  have e2 : P1.scan (P1.initSt (lbrace :: rem)) =
      .ok (⟨.CURLY_BRACE_OPEN, [lbrace]⟩,
        ⟨rem, some ⟨.CURLY_BRACE_OPEN, [lbrace]⟩, false⟩) := by
    simp [P1.scan, P1.initSt, e1]
  have e3 : P1.scan (P1.unscan ⟨rem, some ⟨.CURLY_BRACE_OPEN, [lbrace]⟩, false⟩) =
      .ok (⟨.CURLY_BRACE_OPEN, [lbrace]⟩,
        ⟨rem, some ⟨.CURLY_BRACE_OPEN, [lbrace]⟩, false⟩) := by
    simp [P1.scan, P1.unscan]
  show P1.ParseF (Nat.succ (Nat.succ (f + 1))) _ = _
  simp +decide [P1.ParseF, e2, e3, P1.scanObjectF]

/-- The scanner-based object loop at a close brace: return the
accumulated object, leaving the rest of the input unread. -/
theorem P1_scanObjectLoopF_close (f : Nat) (acc : List (List Char × JValue))
    (lt : Option P1.Token) (sfx : List Char) :
    P1.scanObjectLoopF (Nat.succ f) acc ⟨rbrace :: sfx, lt, false⟩ =
      .ok (.obj acc) ⟨sfx, some ⟨.CURLY_BRACE_CLOSE, [rbrace]⟩, false⟩ := by
  simp +decide [P1.scanObjectLoopF, P1.scanIgnoreWhitespace, P1.scan, P1.Scan]

/-- Helper: in the scanner-based parser the array member loop never
terminates once the input is exhausted with no pushback pending — the
scanner keeps producing `EOF` tokens and the loop `switch` has no case
for them, so every fuel value is exhausted. -/
theorem P1.scanArrayLoopF_exhausted (f : Nat) :
    ∀ acc lt, P1.scanArrayLoopF f acc ⟨[], lt, false⟩ = .oof := by
  induction f with
  | zero => intro acc lt; rfl
  | succ f ih =>
    intro acc lt
    simp only [P1.scanArrayLoopF, P1.scanIgnoreWhitespace, P1.scan, P1.Scan]
    exact ih acc _


theorem scanIdentifierLoop_all (t rest : List Char)
    (ht : ∀ c ∈ t, isLowerCaseLetter c = true)
    (hr : ∀ c, rest.head? = some c → isLowerCaseLetter c = false) :
    P1.scanIdentifierLoop (t ++ rest) = (t, rest) := by
  induction t with
  | nil =>
    cases rest with
    | nil => rfl
    | cons c rs => simp [P1.scanIdentifierLoop, hr c rfl]
  | cons a t' ih =>
    have ha := ht a (List.mem_cons_self a t')
    have ih' := ih (fun c hc => ht c (List.mem_cons_of_mem a hc))
    simp [P1.scanIdentifierLoop, ha, ih']

theorem scanNumberLoop_digits (t rest : List Char)
    (ht : ∀ c ∈ t, isDigit c = true)
    (hr : ∀ c, rest.head? = some c → isDigit c = false ∧ c ≠ '.') :
    P1.scanNumberLoop .DECIMAL (t ++ rest) = (t, rest) := by
  induction t with
  | nil =>
    cases rest with
    | nil => rfl
    | cons c rs =>
      obtain ⟨h1, h2⟩ := hr c rfl
      simp [P1.scanNumberLoop, h1, h2]
  | cons a t' ih =>
    have ha := ht a (List.mem_cons_self a t')
    have hadot : a ≠ '.' := (digit_char_facts a ha).2.2.1
    have ih' := ih (fun c hc => ht c (List.mem_cons_of_mem a hc))
    simp [P1.scanNumberLoop, ha, hadot, ih']

theorem scanNumberLoop_zero (rest : List Char)
    (hr : ∀ c, rest.head? = some c → c ≠ '.') :
    P1.scanNumberLoop .DECIMAL_LESS_THAN_ONE rest = ([], rest) := by
  cases rest with
  | nil => rfl
  | cons c rs => simp [P1.scanNumberLoop, hr c rfl]

theorem natDigits_head_ne_zero : ∀ f n, n ≤ f → 1 ≤ n →
    ∀ c, (natDigits (f + 1) n).head? = some c → c ≠ '0' := by
  intro f
  induction f with
  | zero => intro n h1 h2; omega
  | succ f ih =>
    intro n hn h1 c hc
    by_cases h10 : n < 10
    · simp only [natDigits, if_pos h10, List.head?] at hc
      injection hc with hc
      subst hc
      interval_cases n <;> decide
    · obtain ⟨_, hne, _⟩ := natDigits_spec f (n / 10) (by
        have : n / 10 < n := Nat.div_lt_self (by omega) (by omega)
        omega)
      have hshape : natDigits (f + 1 + 1) n =
          natDigits (f + 1) (n / 10) ++ [digitCh (n % 10)] := by
        simp [natDigits, if_neg h10]
      rw [hshape] at hc
      cases hh : natDigits (f + 1) (n / 10) with
      | nil => exact absurd hh hne
      | cons a l =>
        rw [hh] at hc
        simp only [List.cons_append, List.head?] at hc
        injection hc with hc
        intro h0
        exact ih (n / 10) (by
            have : n / 10 < n := Nat.div_lt_self (by omega) (by omega)
            omega)
          (by omega)
          a (by rw [hh]; rfl) (hc.trans h0)

/-- `Scanner.scanNumber` on a canonically rendered number followed by
input that cannot extend it: the token is exactly the rendered digits. -/
theorem scanNumber_render (m : Nat) (rest : List Char)
    (hr : ∀ c, rest.head? = some c → isDigit c = false ∧ c ≠ '.') :
    P1.scanNumber (renderNat m ++ rest) = (⟨.NUMBER, renderNat m⟩, rest) := by
  obtain ⟨hdig, hne, _⟩ := renderNat_spec m
  cases hm : renderNat m with
  | nil => exact absurd hm hne
  | cons c cs =>
    have hc : isDigit c = true := hdig c (hm ▸ List.mem_cons_self c cs)
    have hcs : ∀ x ∈ cs, isDigit x = true := fun x hx =>
      hdig x (hm ▸ List.mem_cons_of_mem c hx)
    have hnum : isNumeric c = true := by
      simp only [isNumeric, Bool.or_eq_true]
      left
      simpa [isDigit] using hc
    have hdash : c ≠ '-' := (digit_char_facts c hc).1
    by_cases hzero : c = '0'
    · subst hzero
      have hcs0 : cs = [] := by
        by_cases hm1 : m = 0
        · subst hm1
          have h0 : renderNat 0 = ['0'] := rfl
          rw [hm] at h0
          exact (List.cons_eq_cons.mp h0).2
        · exfalso
          exact natDigits_head_ne_zero m m le_rfl (by omega) '0'
            (by show (renderNat m).head? = some '0'; rw [hm]; rfl) rfl
      subst hcs0
      have hz := scanNumberLoop_zero rest (fun c hc => (hr c hc).2)
      simp +decide [P1.scanNumber, hz]
    · have hloop := scanNumberLoop_digits cs rest hcs hr
      simp +decide [P1.scanNumber, hnum, hdash, hzero, hloop]

/-- The scanner string loop on safe characters collects them verbatim
through the closing quote. -/
theorem scanStringLoop_plain1 (s rest : List Char) (hs : goodStr s = true) :
    P1.scanStringLoop false (s ++ '"' :: rest) = .ok ⟨.STRING, s ++ ['"']⟩ rest := by
  induction s with
  | nil => rfl
  | cons c s' ih =>
    obtain ⟨hgc, hgs⟩ := goodStr_cons c s' hs
    obtain ⟨hq, hbs, hctl⟩ := goodChar_facts c hgc
    have ih' := ih hgs
    simp only [List.cons_append, P1.scanStringLoop, hctl, Bool.false_eq_true, if_false,
      if_neg hbs, if_neg hq, List.append_eq, ih']

/-- `Scanner.scanString` on a canonically rendered string literal. -/
theorem scanString_render (s rest : List Char) (hs : goodStr s = true) :
    P1.scanString ('"' :: (s ++ '"' :: rest)) =
      .ok ⟨.STRING, '"' :: (s ++ ['"'])⟩ rest := by
  have h := scanStringLoop_plain1 s rest hs
  simp +decide [P1.scanString, h]

/-- The decode loop of `parseString` on safe characters. -/
theorem parseStringLoop_plain (s : List Char) (hs : goodStr s = true) :
    P1.parseStringLoop false false (s ++ ['"']) = .ok s := by
  induction s with
  | nil => rfl
  | cons c s' ih =>
    obtain ⟨hgc, hgs⟩ := goodStr_cons c s' hs
    obtain ⟨hq, hbs, _⟩ := goodChar_facts c hgc
    have ih' := ih hgs
    simp only [List.cons_append, P1.parseStringLoop, if_neg hq, if_neg hbs,
      List.append_eq, ih']

/-- `parseString` on a canonically rendered string token. -/
theorem parseString_render (s : List Char) (hs : goodStr s = true) :
    P1.parseString ('"' :: (s ++ ['"'])) = .ok s := by
  have h := parseStringLoop_plain s hs
  simp [P1.parseString, h]

theorem p1_scan_null (X : List Char)
    (hX : ∀ c, X.head? = some c → isLowerCaseLetter c = false) :
    P1.Scan (('n' :: 'u' :: 'l' :: 'l' :: []) ++ X) =
      .ok ⟨.NULL, 'n' :: 'u' :: 'l' :: 'l' :: []⟩ X := by
  have h := scanIdentifierLoop_all ('n' :: 'u' :: 'l' :: 'l' :: []) X (by decide) hX
  simp only [List.cons_append, List.nil_append] at h
  simp +decide [P1.Scan, P1.scanIdentifier, h]

theorem p1_scan_true (X : List Char)
    (hX : ∀ c, X.head? = some c → isLowerCaseLetter c = false) :
    P1.Scan (('t' :: 'r' :: 'u' :: 'e' :: []) ++ X) =
      .ok ⟨.TRUE, 't' :: 'r' :: 'u' :: 'e' :: []⟩ X := by
  have h := scanIdentifierLoop_all ('t' :: 'r' :: 'u' :: 'e' :: []) X (by decide) hX
  simp only [List.cons_append, List.nil_append] at h
  simp +decide [P1.Scan, P1.scanIdentifier, h]

theorem p1_scan_false (X : List Char)
    (hX : ∀ c, X.head? = some c → isLowerCaseLetter c = false) :
    P1.Scan (('f' :: 'a' :: 'l' :: 's' :: 'e' :: []) ++ X) =
      .ok ⟨.FALSE, 'f' :: 'a' :: 'l' :: 's' :: 'e' :: []⟩ X := by
  have h := scanIdentifierLoop_all ('f' :: 'a' :: 'l' :: 's' :: 'e' :: []) X (by decide) hX
  simp only [List.cons_append, List.nil_append] at h
  simp +decide [P1.Scan, P1.scanIdentifier, h]

theorem p1_scan_num (m : Nat) (X : List Char)
    (hX : ∀ c, X.head? = some c → isDigit c = false ∧ c ≠ '.') :
    P1.Scan (renderNat m ++ X) = .ok ⟨.NUMBER, renderNat m⟩ X := by
  obtain ⟨hdig, hne, _⟩ := renderNat_spec m
  have hsn := scanNumber_render m X hX
  cases hm : renderNat m with
  | nil => exact absurd hm hne
  | cons c cs =>
    rw [hm] at hsn
    have hc : isDigit c = true := hdig c (hm ▸ List.mem_cons_self c cs)
    obtain ⟨_, _, _, _, _, _, hws, _, _, _, _, hq, _, _, _, hlow⟩ := digit_char_facts c hc
    have hnum : isNumeric c = true := by
      simp only [isNumeric, Bool.or_eq_true]
      left
      simpa [isDigit] using hc
    simp only [List.cons_append, P1.Scan, hws, hlow, Bool.false_eq_true, if_false,
      if_neg hq, hnum, if_true]
    simp only [List.cons_append] at hsn
    simp [hsn]

theorem p1_scan_lbrack (X : List Char) :
    P1.Scan ('[' :: X) = .ok ⟨.SQUARED_BRACE_OPEN, ['[']⟩ X := by
  simp +decide [P1.Scan]

theorem p1_scan_lbrace (X : List Char) :
    P1.Scan (lbrace :: X) = .ok ⟨.CURLY_BRACE_OPEN, [lbrace]⟩ X := by
  simp +decide [P1.Scan]

theorem p1_scan_colon (X : List Char) :
    P1.Scan (':' :: X) = .ok ⟨.COLON, [':']⟩ X := by
  simp +decide [P1.Scan]

/-- `scanIgnoreWhitespace` on a fresh state whose first token is not
whitespace. -/
theorem sIW_fresh (rem0 rem : List Char) (tok : P1.Token) (lt0 : Option P1.Token)
    (h : P1.Scan rem0 = .ok tok rem) (hw : tok.ty ≠ .WHITESPACE) :
    P1.scanIgnoreWhitespace ⟨rem0, lt0, false⟩ = .ok (tok, ⟨rem, some tok, false⟩) := by
  simp [P1.scanIgnoreWhitespace, P1.scan, h, hw]

/-- `scanIgnoreWhitespace` on a state with a buffered non-whitespace
token. -/
theorem sIW_buffered (rem : List Char) (tok : P1.Token) (hw : tok.ty ≠ .WHITESPACE) :
    P1.scanIgnoreWhitespace ⟨rem, some tok, true⟩ = .ok (tok, ⟨rem, some tok, false⟩) := by
  simp [P1.scanIgnoreWhitespace, P1.scan, hw]

/-- `scanValue` after `unscan` behaves as a fresh scan of the input the
buffered token came from. -/
theorem scanValueF_buffer (f : Nat) (rem0 rem : List Char) (tok : P1.Token)
    (lt0 : Option P1.Token) (h : P1.Scan rem0 = .ok tok rem) (hw : tok.ty ≠ .WHITESPACE) :
    P1.scanValueF f ⟨rem, some tok, true⟩ = P1.scanValueF f ⟨rem0, lt0, false⟩ := by
  cases f with
  | zero => rfl
  | succ f =>
    rw [P1.scanValueF, P1.scanValueF, sIW_buffered rem tok hw, sIW_fresh rem0 rem tok lt0 h hw]

/-- Array-loop step: a value-starting token hands control to `scanValue`
on the same input. -/
theorem p1_arrayLoop_step (f : Nat) (acc : List JValue) (rem0 rem1 : List Char)
    (lt : Option P1.Token) (tok : P1.Token) (h : P1.Scan rem0 = .ok tok rem1)
    (hty : tok.ty = .STRING ∨ tok.ty = .NUMBER ∨ tok.ty = .CURLY_BRACE_OPEN ∨
      tok.ty = .SQUARED_BRACE_OPEN ∨ tok.ty = .TRUE ∨ tok.ty = .FALSE ∨ tok.ty = .NULL) :
    P1.scanArrayLoopF (Nat.succ f) acc ⟨rem0, lt, false⟩ =
      (match P1.scanValueF f ⟨rem0, lt, false⟩ with
       | .ok v s'' => P1.scanArrayLoopF f (acc ++ [v]) s''
       | .err e => .err e
       | .panic => .panic
       | .oof => .oof) := by
  have hw : tok.ty ≠ .WHITESPACE := by
    rcases hty with h' | h' | h' | h' | h' | h' | h' <;> simp [h']
  have hbuf := scanValueF_buffer f rem0 rem1 tok lt h hw
  rw [P1.scanArrayLoopF, sIW_fresh rem0 rem1 tok lt h hw]
  have hu : P1.unscan ⟨rem1, some tok, false⟩ = ⟨rem1, some tok, true⟩ := rfl
  rcases hty with h' | h' | h' | h' | h' | h' | h' <;>
    (obtain ⟨ty, runes⟩ := tok; simp only at h'; subst h'; simp only [hu, hbuf];
     cases P1.scanValueF f ⟨rem0, lt, false⟩ <;> rfl)

theorem p1_arrayLoop_close (f : Nat) (acc : List JValue) (rest : List Char)
    (lt : Option P1.Token) :
    P1.scanArrayLoopF (Nat.succ f) acc ⟨']' :: rest, lt, false⟩ =
      .ok (.arr acc) ⟨rest, some ⟨.SQUARED_BRACE_CLOSE, [']']⟩, false⟩ := rfl

theorem p1_arrayLoop_comma (f : Nat) (acc : List JValue) (rest : List Char)
    (lt : Option P1.Token) :
    P1.scanArrayLoopF (Nat.succ f) acc ⟨',' :: rest, lt, false⟩ =
      P1.scanArrayLoopF f acc ⟨rest, some ⟨.COMMA, [',']⟩, false⟩ := rfl

theorem p1_objectLoop_close (f : Nat) (acc : List (List Char × JValue)) (rest : List Char)
    (lt : Option P1.Token) :
    P1.scanObjectLoopF (Nat.succ f) acc ⟨rbrace :: rest, lt, false⟩ =
      .ok (.obj acc) ⟨rest, some ⟨.CURLY_BRACE_CLOSE, [rbrace]⟩, false⟩ := rfl

theorem p1_objectLoop_comma (f : Nat) (acc : List (List Char × JValue)) (rest : List Char)
    (lt : Option P1.Token) :
    P1.scanObjectLoopF (Nat.succ f) acc ⟨',' :: rest, lt, false⟩ =
      P1.scanObjectLoopF f acc ⟨rest, some ⟨.COMMA, [',']⟩, false⟩ := rfl

/-- Object-loop member step: a rendered key and colon hand control to
`scanValue` on the rest of the input. -/
theorem p1_objectLoop_member (f : Nat) (acc : List (List Char × JValue))
    (s : List Char) (hs : goodStr s = true) (t X : List Char) (lt : Option P1.Token) :
    P1.scanObjectLoopF (Nat.succ f) acc ⟨'"' :: (s ++ '"' :: ':' :: (t ++ X)), lt, false⟩ =
      (match P1.scanValueF f ⟨t ++ X, some ⟨.COLON, [':']⟩, false⟩ with
       | .ok v s3 => P1.scanObjectLoopF f (mapSet acc s v) s3
       | .err e => .err e
       | .panic => .panic
       | .oof => .oof) := by
  have hscan : P1.Scan ('"' :: (s ++ '"' :: ':' :: (t ++ X))) =
      .ok ⟨.STRING, '"' :: (s ++ ['"'])⟩ (':' :: (t ++ X)) := by
    have h := scanString_render s (':' :: (t ++ X)) hs
    simpa [P1.Scan] using h
  rw [P1.scanObjectLoopF, sIW_fresh _ _ _ lt hscan (by simp)]
  simp only
  rw [parseString_render s hs]
  rw [sIW_fresh _ _ _ _ (p1_scan_colon (t ++ X)) (by simp)]
  simp only [if_pos rfl]
  cases P1.scanValueF f ⟨t ++ X, some ⟨P1.Ty.COLON, [':']⟩, false⟩ <;> rfl

theorem p1_scan_str (s X : List Char) (hs : goodStr s = true) :
    P1.Scan ('"' :: (s ++ '"' :: X)) = .ok ⟨.STRING, '"' :: (s ++ ['"'])⟩ X := by
  have h := scanString_render s X hs
  simpa [P1.Scan] using h

theorem p1Safe_null_head (rest : List Char) (h : p1Safe .null rest = true) :
    ∀ c, rest.head? = some c → isLowerCaseLetter c = false := by
  intro c hc
  cases rest with
  | nil => simp at hc
  | cons c0 rs =>
    simp only [List.head?] at hc
    injection hc with hh
    subst hh
    simpa [p1Safe] using h

theorem p1Safe_bool_head (b : Bool) (rest : List Char)
    (h : p1Safe (.bool b) rest = true) :
    ∀ c, rest.head? = some c → isLowerCaseLetter c = false := by
  intro c hc
  cases rest with
  | nil => simp at hc
  | cons c0 rs =>
    simp only [List.head?] at hc
    injection hc with hh
    subst hh
    simpa [p1Safe] using h

theorem p1Safe_num_head (q : ℚ) (rest : List Char)
    (h : p1Safe (.num q) rest = true) :
    ∀ c, rest.head? = some c → isDigit c = false ∧ c ≠ '.' := by
  intro c hc
  cases rest with
  | nil => simp at hc
  | cons c0 rs =>
    simp only [List.head?] at hc
    injection hc with hh
    subst hh
    simpa [p1Safe] using h

/-- Trailing input starting with a delimiter is safe after any value. -/
theorem p1Safe_delim (c : Char) (hd : isDigit c = false) (hdot : c ≠ '.')
    (hl : isLowerCaseLetter c = false) :
    ∀ (v : JValue) (rest' : List Char), p1Safe v (c :: rest') = true := by
  intro v rest'
  cases v <;> simp [p1Safe, hd, hdot, hl]

/-- The scanner produces a value-starting token at the head of every
canonically rendered value. -/
theorem p1_head (k : Nat) (t : List Char) (v : JValue) (h : GoodRender k t v)
    (X : List Char) (hX : p1Safe v X = true) :
    ∃ tok rem1, P1.Scan (t ++ X) = .ok tok rem1 ∧
      (tok.ty = .STRING ∨ tok.ty = .NUMBER ∨ tok.ty = .CURLY_BRACE_OPEN ∨
       tok.ty = .SQUARED_BRACE_OPEN ∨ tok.ty = .TRUE ∨ tok.ty = .FALSE ∨
       tok.ty = .NULL) := by
  cases h with
  | null => exact ⟨_, _, p1_scan_null X (p1Safe_null_head X hX), by simp⟩
  | btrue => exact ⟨_, _, p1_scan_true X (p1Safe_bool_head true X hX), by simp⟩
  | bfalse => exact ⟨_, _, p1_scan_false X (p1Safe_bool_head false X hX), by simp⟩
  | num m hm => exact ⟨_, _, p1_scan_num m X (p1Safe_num_head _ X hX), by simp⟩
  | @str s hs =>
    have hshape : ('"' :: s ++ ['"']) ++ X = '"' :: (s ++ '"' :: X) := by simp
    refine ⟨⟨.STRING, '"' :: (s ++ ['"'])⟩, X, ?_, by simp⟩
    rw [hshape]
    exact p1_scan_str s X hs
  | arr hl => exact ⟨_, _, p1_scan_lbrack _, by simp⟩
  | obj ho => exact ⟨_, _, p1_scan_lbrace _, by simp⟩

/-- Master induction for the scanner-based parser: every canonically
rendered value is scanned to the corresponding `JValue`, leaving the
trailing input unread (with the last token buffered off). -/
theorem renders1 (K : Nat) :
    (∀ k t v, k ≤ K → GoodRender k t v → ∀ n rest (lt : Option P1.Token),
        p1Safe v rest = true →
        ∃ tok, P1.scanValueF (n + k) ⟨t ++ rest, lt, false⟩ =
          .ok v ⟨rest, some tok, false⟩) ∧
    (∀ k tl vs, k ≤ K → GoodRenderL k tl vs → ∀ n rest acc (lt : Option P1.Token),
        P1.scanArrayLoopF (n + k) acc ⟨tl ++ ']' :: rest, lt, false⟩ =
          .ok (.arr (acc ++ vs)) ⟨rest, some ⟨.SQUARED_BRACE_CLOSE, [']']⟩, false⟩) ∧
    (∀ k tl ps, k ≤ K → GoodRenderO k tl ps → ∀ n rest acc (lt : Option P1.Token),
        (∀ p ∈ ps, hasKey p.1 acc = false) →
        P1.scanObjectLoopF (n + k) acc ⟨tl ++ rbrace :: rest, lt, false⟩ =
          .ok (.obj (acc ++ ps)) ⟨rest, some ⟨.CURLY_BRACE_CLOSE, [rbrace]⟩, false⟩) := by
  induction K with
  | zero =>
    refine ⟨?_, ?_, ?_⟩
    · intro k t v hk h
      have : k = 0 := by omega
      subst this
      cases h
    · intro k tl vs hk h
      have : k = 0 := by omega
      subst this
      cases h
    · intro k tl ps hk h
      have : k = 0 := by omega
      subst this
      cases h
  | succ K IH =>
    obtain ⟨IHv, IHl, IHo⟩ := IH
    refine ⟨?_, ?_, ?_⟩
    · -- value
      intro k t v hk h n rest lt hsafe
      cases h with
      | null =>
        refine ⟨⟨.NULL, 'n' :: 'u' :: 'l' :: 'l' :: []⟩, ?_⟩
        show P1.scanValueF (Nat.succ n) _ = _
        rw [P1.scanValueF,
          sIW_fresh _ _ _ lt (p1_scan_null rest (p1Safe_null_head rest hsafe)) (by simp)]
      | btrue =>
        refine ⟨⟨.TRUE, 't' :: 'r' :: 'u' :: 'e' :: []⟩, ?_⟩
        show P1.scanValueF (Nat.succ n) _ = _
        rw [P1.scanValueF,
          sIW_fresh _ _ _ lt (p1_scan_true rest (p1Safe_bool_head true rest hsafe)) (by simp)]
      | bfalse =>
        refine ⟨⟨.FALSE, 'f' :: 'a' :: 'l' :: 's' :: 'e' :: []⟩, ?_⟩
        show P1.scanValueF (Nat.succ n) _ = _
        rw [P1.scanValueF,
          sIW_fresh _ _ _ lt
            (p1_scan_false rest (p1Safe_bool_head false rest hsafe)) (by simp)]
      | num m hm =>
        obtain ⟨hdig, hne, hval⟩ := renderNat_spec m
        have hfloat := parseFloatQ_digits (renderNat m) hdig hne (by rw [hval]; exact hm)
        refine ⟨⟨.NUMBER, renderNat m⟩, ?_⟩
        show P1.scanValueF (Nat.succ n) _ = _
        rw [P1.scanValueF,
          sIW_fresh _ _ _ lt
            (p1_scan_num m rest (p1Safe_num_head _ rest hsafe)) (by simp)]
        simp [P1.parseNumber, hfloat, hval, Rat.mkRat_one, Int.cast_natCast]
      | @str s hs =>
        have hshape : ('"' :: s ++ ['"']) ++ rest = '"' :: (s ++ '"' :: rest) := by simp
        refine ⟨⟨.STRING, '"' :: (s ++ ['"'])⟩, ?_⟩
        show P1.scanValueF (Nat.succ n) _ = _
        rw [hshape, P1.scanValueF,
          sIW_fresh _ _ _ lt (p1_scan_str s rest hs) (by simp)]
        simp [parseString_render s hs]
      | @arr kl tl vs hl =>
        have hshape : ('[' :: tl ++ [']']) ++ rest = '[' :: (tl ++ ']' :: rest) := by simp
        have harr := IHl kl tl vs (by omega) hl n rest []
          (some ⟨.SQUARED_BRACE_OPEN, ['[']⟩)
        refine ⟨⟨.SQUARED_BRACE_CLOSE, [']']⟩, ?_⟩
        show P1.scanValueF (Nat.succ (Nat.succ (n + kl))) _ = _
        rw [hshape, P1.scanValueF,
          sIW_fresh _ _ _ lt (p1_scan_lbrack _) (by simp)]
        show P1.scanArrayF (Nat.succ (n + kl)) _ = _
        rw [P1.scanArrayF]
        simp only [P1.scan, P1.unscan, if_pos rfl, Option.getD]
        simpa using harr
      | @obj kl tl ps ho =>
        have hshape : (lbrace :: tl ++ [rbrace]) ++ rest = lbrace :: (tl ++ rbrace :: rest) := by
          simp
        have hobj := IHo kl tl ps (by omega) ho n rest []
          (some ⟨.CURLY_BRACE_OPEN, [lbrace]⟩) (by simp [hasKey])
        refine ⟨⟨.CURLY_BRACE_CLOSE, [rbrace]⟩, ?_⟩
        show P1.scanValueF (Nat.succ (Nat.succ (n + kl))) _ = _
        rw [hshape, P1.scanValueF,
          sIW_fresh _ _ _ lt (p1_scan_lbrace _) (by simp)]
        show P1.scanObjectF (Nat.succ (n + kl)) _ = _
        rw [P1.scanObjectF]
        simp only [P1.scan, P1.unscan, if_pos rfl, Option.getD]
        simpa using hobj
    · -- array member loop
      intro k tl vs hk h n rest acc lt
      cases h with
      | nil =>
        simpa using p1_arrayLoop_close n acc rest lt
      | @single k' _ v hv =>
        have hXsafe := p1Safe_delim ']' (by decide) (by decide) (by decide) v rest
        obtain ⟨tokh, remh, hscanh, htyh⟩ := p1_head k' tl v hv (']' :: rest) hXsafe
        rw [show n + (k' + 2) = Nat.succ (n + k' + 1) by omega,
          p1_arrayLoop_step _ _ _ _ lt tokh hscanh htyh]
        obtain ⟨tokv, hv'⟩ := IHv k' tl v (by omega) hv (n + 1) (']' :: rest) lt hXsafe
        rw [show n + k' + 1 = (n + 1) + k' by omega, hv']
        show P1.scanArrayLoopF ((n + 1) + k') (acc ++ [v]) ⟨']' :: rest, some tokv, false⟩ = _
        rw [show (n + 1) + k' = Nat.succ (n + k') by omega, p1_arrayLoop_close]
      | @cons k' t v v' kl' tl' vs' hv hl' =>
        have hXsafe := p1Safe_delim ',' (by decide) (by decide) (by decide) v
          (tl' ++ ']' :: rest)
        obtain ⟨tokh, remh, hscanh, htyh⟩ :=
          p1_head k' t v hv (',' :: (tl' ++ ']' :: rest)) hXsafe
        have hshape : (t ++ ',' :: tl') ++ ']' :: rest =
            t ++ (',' :: (tl' ++ ']' :: rest)) := by simp
        rw [hshape, show n + (k' + kl' + 2) = Nat.succ (n + k' + kl' + 1) by omega,
          p1_arrayLoop_step _ _ _ _ lt tokh hscanh htyh]
        obtain ⟨tokv, hv'⟩ := IHv k' t v (by omega) hv (n + kl' + 1)
          (',' :: (tl' ++ ']' :: rest)) lt hXsafe
        rw [show n + k' + kl' + 1 = (n + kl' + 1) + k' by omega, hv']
        show P1.scanArrayLoopF ((n + kl' + 1) + k') (acc ++ [v])
          ⟨',' :: (tl' ++ ']' :: rest), some tokv, false⟩ = _
        rw [show (n + kl' + 1) + k' = Nat.succ (n + k' + kl') by omega, p1_arrayLoop_comma]
        have hl'' := IHl kl' tl' (v' :: vs') (by omega) hl' (n + k') rest (acc ++ [v])
          (some ⟨.COMMA, [',']⟩)
        rw [show n + k' + kl' = (n + k') + kl' by omega, hl'']
        simp
    · -- object member loop
      intro k tl ps hk h n rest acc lt hfresh
      cases h with
      | nil =>
        simpa using p1_objectLoop_close n acc rest lt
      | @single s k' t v hs hv =>
        have hXsafe := p1Safe_delim rbrace (by decide) (by decide) (by decide) v rest
        have hshape : ('"' :: s ++ '"' :: ':' :: t) ++ rbrace :: rest =
            '"' :: (s ++ '"' :: ':' :: (t ++ rbrace :: rest)) := by simp
        rw [hshape, show n + (k' + 2) = Nat.succ (n + k' + 1) by omega,
          p1_objectLoop_member _ _ s hs t (rbrace :: rest) lt]
        obtain ⟨tokv, hv'⟩ := IHv k' t v (by omega) hv (n + 1) (rbrace :: rest)
          (some ⟨.COLON, [':']⟩) hXsafe
        rw [show n + k' + 1 = (n + 1) + k' by omega, hv']
        show P1.scanObjectLoopF ((n + 1) + k') (mapSet acc s v)
          ⟨rbrace :: rest, some tokv, false⟩ = _
        rw [mapSet_append acc s v (hfresh (s, v) (List.mem_cons_self _ _))]
        rw [show (n + 1) + k' = Nat.succ (n + k') by omega, p1_objectLoop_close]
      | @cons s k' t v kl' tl' p' ps' hs hv ho' hknew =>
        have hXsafe := p1Safe_delim ',' (by decide) (by decide) (by decide) v
          (tl' ++ rbrace :: rest)
        have hshape : (('"' :: s ++ '"' :: ':' :: t) ++ ',' :: tl') ++ rbrace :: rest =
            '"' :: (s ++ '"' :: ':' :: (t ++ (',' :: (tl' ++ rbrace :: rest)))) := by simp
        rw [hshape, show n + (k' + kl' + 2) = Nat.succ (n + k' + kl' + 1) by omega,
          p1_objectLoop_member _ _ s hs t (',' :: (tl' ++ rbrace :: rest)) lt]
        obtain ⟨tokv, hv'⟩ := IHv k' t v (by omega) hv (n + kl' + 1)
          (',' :: (tl' ++ rbrace :: rest)) (some ⟨.COLON, [':']⟩) hXsafe
        rw [show n + k' + kl' + 1 = (n + kl' + 1) + k' by omega, hv']
        show P1.scanObjectLoopF ((n + kl' + 1) + k') (mapSet acc s v)
          ⟨',' :: (tl' ++ rbrace :: rest), some tokv, false⟩ = _
        rw [mapSet_append acc s v (hfresh (s, v) (List.mem_cons_self _ _))]
        rw [show (n + kl' + 1) + k' = Nat.succ (n + k' + kl') by omega, p1_objectLoop_comma]
        have hfresh' : ∀ q ∈ (p' :: ps'), hasKey q.1 (acc ++ [(s, v)]) = false := by
          intro q hq
          have hq1 : hasKey q.1 acc = false := hfresh q (List.mem_cons_of_mem _ hq)
          have hq2 : q.1 ≠ s := hasKey_false_forall s (p' :: ps') hknew q hq
          exact hasKey_append_false q.1 s v acc hq1 hq2
        have ho'' := IHo kl' tl' (p' :: ps') (by omega) ho' (n + k') rest
          (acc ++ [(s, v)]) (some ⟨.COMMA, [',']⟩) hfresh'
        rw [show n + k' + kl' = (n + k') + kl' by omega, ho'']
        simp

/-- The scanner-based top level on a `[`-headed input: scan the
bracket, push it back, and enter the array loop. -/
theorem p1_ParseF_openBracket (f : Nat) (rem : List Char) :
    P1.ParseF (f + 3) (P1.initSt ('[' :: rem)) =
      P1.scanArrayLoopF (f + 1) [] ⟨rem, some ⟨.SQUARED_BRACE_OPEN, ['[']⟩, false⟩ := by
  have e2 : P1.scan (P1.initSt ('[' :: rem)) =
      .ok (⟨.SQUARED_BRACE_OPEN, ['[']⟩,
        ⟨rem, some ⟨.SQUARED_BRACE_OPEN, ['[']⟩, false⟩) := by
    simp [P1.scan, P1.initSt, p1_scan_lbrack]
  have e3 : P1.scan (P1.unscan ⟨rem, some ⟨.SQUARED_BRACE_OPEN, ['[']⟩, false⟩) =
      .ok (⟨.SQUARED_BRACE_OPEN, ['[']⟩,
        ⟨rem, some ⟨.SQUARED_BRACE_OPEN, ['[']⟩, false⟩) := by
    simp [P1.scan, P1.unscan]
  show P1.ParseF (Nat.succ (Nat.succ (f + 1))) _ = _
  simp +decide [P1.ParseF, e2, e3, P1.scanArrayF]

/-- Canonically rendered containers parse to themselves with arbitrary
trailing input, in the scanner-based implementation. -/
theorem parse_render1 (k : Nat) (t : List Char) (v : JValue) (rest : List Char)
    (h : GoodRender k t v) (hc : isContainer v = true) :
    ∃ tok, P1.ParseString (t ++ rest) = .ok v ⟨rest, some tok, false⟩ := by
  cases h with
  | null => simp [isContainer] at hc
  | btrue => simp [isContainer] at hc
  | bfalse => simp [isContainer] at hc
  | num m hm => simp [isContainer] at hc
  | str hs => simp [isContainer] at hc
  | @arr kl tl vs hl =>
    refine ⟨⟨.SQUARED_BRACE_CLOSE, [']']⟩, ?_⟩
    have hcost : kl ≤ 3 * tl.length + 4 := (gr_cost kl).2.1 kl tl vs le_rfl hl
    have hshape : ('[' :: tl ++ [']']) ++ rest = '[' :: (tl ++ ']' :: rest) := by simp
    have hlen : 3 * (('[' :: tl ++ [']']) ++ rest).length + 3 =
        (3 * tl.length + 3 * rest.length + 6) + 3 := by
      simp [List.length_append]
      omega
    rw [P1.ParseString, hshape]
    rw [show ('[' :: tl ++ [']']) ++ rest = '[' :: (tl ++ ']' :: rest) from hshape] at hlen
    rw [hlen, p1_ParseF_openBracket]
    have harr := (renders1 kl).2.1 kl tl vs le_rfl hl
      (3 * tl.length + 3 * rest.length + 7 - kl) rest []
      (some ⟨.SQUARED_BRACE_OPEN, ['[']⟩)
    rw [show 3 * tl.length + 3 * rest.length + 6 + 1 =
      (3 * tl.length + 3 * rest.length + 7 - kl) + kl by omega, harr]
    simp
  | @obj kl tl ps ho =>
    refine ⟨⟨.CURLY_BRACE_CLOSE, [rbrace]⟩, ?_⟩
    have hcost : kl ≤ 3 * tl.length + 4 := (gr_cost kl).2.2 kl tl ps le_rfl ho
    have hshape : (lbrace :: tl ++ [rbrace]) ++ rest = lbrace :: (tl ++ rbrace :: rest) := by
      simp
    have hlen : 3 * ((lbrace :: tl ++ [rbrace]) ++ rest).length + 3 =
        (3 * tl.length + 3 * rest.length + 6) + 3 := by
      simp [List.length_append]
      omega
    rw [P1.ParseString, hshape]
    rw [show (lbrace :: tl ++ [rbrace]) ++ rest = lbrace :: (tl ++ rbrace :: rest)
      from hshape] at hlen
    rw [hlen, P1_ParseF_openBrace]
    have hobj := (renders1 kl).2.2 kl tl ps le_rfl ho
      (3 * tl.length + 3 * rest.length + 7 - kl) rest []
      (some ⟨.CURLY_BRACE_OPEN, [lbrace]⟩) (by simp [hasKey])
    rw [show 3 * tl.length + 3 * rest.length + 6 + 1 =
      (3 * tl.length + 3 * rest.length + 7 - kl) + kl by omega, hobj]
    simp

/-- C3: the claim says `[1,2,` fails with a typed error; in fact the
scanner-based parse loops forever (out of fuel for every fuel value:
its array loop has no case for `EOF`) and the index-based parse
panics (`Data[Index]` with the input exhausted). -/
theorem c3_bug :
    (∀ f, P1.ParseF f (P1.initSt "[1,2,".toList) = .oof) ∧
    P2.Parse "[1,2,".toList = .panic := by
  refine ⟨?_, by rfl⟩
  intro f
  match f with
  | 0 | 1 | 2 | 3 | 4 | 5 | 6 | 7 => rfl
  | f + 8 =>
    show P1.ParseF (f + 8) (P1.initSt ('[' :: '1' :: ',' :: '2' :: ',' :: [])) = .oof
    simp only [P1.ParseF, P1.initSt, P1.scan, P1.Scan, P1.unscan, P1.scanArrayF,
      P1.scanArrayLoopF, P1.scanIgnoreWhitespace, P1.scanValueF, P1.scanNumber,
      P1.scanNumberLoop, P1.parseNumber]
    exact P1.scanArrayLoopF_exhausted _ _ _

/-- C2 counterexample: the claim says `1e10`, `1E-10` and `-0.5` are
all accepted inside a containing value.  In the scanner-based parse
`[1e10]` yields the two numbers 1 and 10 (the `DECIMAL` state does not
accept `e`, the stray `e` becomes an `ILLEGAL` token that the array
loop silently skips), and the index-based parse rejects `[-0.5]` with
an unknown-token error (its `NumberStart` class is `\d`, so `-` starts
no token). -/
theorem c2_counterexample :
    P1.ParseString "[1e10]".toList =
      .ok (.arr [.num 1, .num 10]) ⟨[], some ⟨.SQUARED_BRACE_CLOSE, [']']⟩, false⟩ ∧
    P2.Parse "[-0.5]".toList = .err .unknownToken := by
  exact ⟨by rfl, by rfl⟩

/-- C2 amended: the index-based parse decodes `[1e10]` and `[1E-10]`
to the expected values (10^10 and 10^-10) but rejects `-0.5`; the
scanner-based parse decodes `[-0.5]` to -1/2 (leading `-` accepted)
but starts an exponent only from the fraction state, so `[1e10]`
parses as the two numbers 1 and 10. -/
theorem c2_amended :
    P2.Parse "[1e10]".toList = .ok (.arr [.num 10000000000]) [] ∧
    P2.Parse "[1E-10]".toList = .ok (.arr [.num (mkRat 1 10000000000)]) [] ∧
    P1.ParseString "[-0.5]".toList =
      .ok (.arr [.num (mkRat (-1) 2)]) ⟨[], some ⟨.SQUARED_BRACE_CLOSE, [']']⟩, false⟩ ∧
    P1.ParseString "[1e10]".toList =
      .ok (.arr [.num 1, .num 10]) ⟨[], some ⟨.SQUARED_BRACE_CLOSE, [']']⟩, false⟩ ∧
    (mkRat 1 10000000000 : ℚ) = 1 / 10000000000 ∧ (mkRat (-1) 2 : ℚ) = -(1 / 2) := by
  refine ⟨by rfl, by rfl, by rfl, by rfl, ?_, ?_⟩ <;> norm_num [Rat.mkRat_eq_div]

/-- C4: the claim says any `\u` with fewer than 4 code points left
before the input ends yields an `InvalidUnicodeEscapeError` and that
decoding never reads out of range.  With exactly 3 code points left
after `u` the guard `length-index < 4` passes and
`runes[index : index+4]` reads past the end of the token — a Go
slice-bounds panic — in both implementations; with 2 or fewer the
typed error is returned as claimed. -/
theorem c4_bug :
    P1.ParseString "[\"\\u123".toList = .panic ∧
    P1.ParseString "[\"\\u12".toList = .err .shortUnicode ∧
    P2.Parse "\"\\u123".toList = .panic ∧
    P2.Parse "\"\\u12".toList = .err .shortUnicode := by
  exact ⟨by rfl, by rfl, by rfl, by rfl⟩

/-- C5 counterexample: the claim says parsing `"a\b\r\t\n\f"` yields
the five literal control characters.  The index-based parse instead
keeps the five escapes as two-character backslash sequences (exactly
what its own test expects). -/
theorem c5_counterexample :
    P2.Parse "\"a\\b\\r\\t\\n\\f\"".toList =
      .ok (.str ['a', '\\', 'b', '\\', 'r', '\\', 't', '\\', 'n', '\\', 'f']) [] ∧
    (['a', '\\', 'b', '\\', 'r', '\\', 't', '\\', 'n', '\\', 'f'] : List Char) ≠
      ['a', Char.ofNat 8, Char.ofNat 13, Char.ofNat 9, Char.ofNat 10, Char.ofNat 12] := by
  exact ⟨by rfl, by decide⟩

/-- C5 amended: the scanner-based decoder `parseString` does decode
`"a\b\r\t\n\f"` to the five literal control characters (backspace,
carriage return, tab, newline, form feed); the index-based decoder
keeps them as two-character backslash sequences. -/
theorem c5_amended :
    P1.ParseString "[\"a\\b\\r\\t\\n\\f\"]".toList =
      .ok (.arr [.str ['a', Char.ofNat 8, Char.ofNat 13, Char.ofNat 9,
        Char.ofNat 10, Char.ofNat 12]])
        ⟨[], some ⟨.SQUARED_BRACE_CLOSE, [']']⟩, false⟩ ∧
    P2.Parse "\"a\\b\\r\\t\\n\\f\"".toList =
      .ok (.str ['a', '\\', 'b', '\\', 'r', '\\', 't', '\\', 'n', '\\', 'f']) [] := by
  exact ⟨by rfl, by rfl⟩

/-- C7 counterexample: the claim says `01` is rejected rather than
accepted as one or more numbers.  The scanner-based parse accepts
`[01]` as the two numbers 0 and 1 (the leading-zero state merely ends
the token), and the index-based parse accepts the whole run `01` as
the single number 1 (`ParseFloat` takes leading zeros). -/
theorem c7_counterexample :
    P1.ParseString "[01]".toList =
      .ok (.arr [.num 0, .num 1]) ⟨[], some ⟨.SQUARED_BRACE_CLOSE, [']']⟩, false⟩ ∧
    P2.Parse "01".toList = .ok (.num 1) [] := by
  exact ⟨by rfl, by rfl⟩

/-- C7 amended: `0` is valid in both parses; after a leading zero the
scanner-based number state machine accepts only `.`, so the token ends
and `[01]` parses as the two numbers 0 and 1, while the index-based
parse collects the whole digit run and parses `01` as the single
number 1 — neither rejects the input. -/
theorem c7_amended :
    P1.ParseString "[0]".toList =
      .ok (.arr [.num 0]) ⟨[], some ⟨.SQUARED_BRACE_CLOSE, [']']⟩, false⟩ ∧
    P2.Parse "0".toList = .ok (.num 0) [] ∧
    P1.ParseString "[01]".toList =
      .ok (.arr [.num 0, .num 1]) ⟨[], some ⟨.SQUARED_BRACE_CLOSE, [']']⟩, false⟩ ∧
    P2.Parse "[01]".toList = .ok (.arr [.num 1]) [] := by
  exact ⟨by rfl, by rfl, by rfl, by rfl⟩

/-- C6 counterexample: the claim says an unrecognized escape is never
silently dropped.  The index-based decoder's escape `switch` has no
default case, so `"\\q"` parses successfully to the empty string — the
escape is silently dropped, not an error. -/
theorem c6_counterexample :
    P2.Parse "\"\\q\"".toList = .ok (.str []) [] := by rfl

set_option maxHeartbeats 2000000 in
/-- C6 amended: for every lowercase letter outside the accepted escape
set, the scanner-based parse rejects the string with its invalid
escape scan error (`"unexpected end of input"`), while the index-based
parse silently drops both the backslash and the letter. -/
theorem c6_amended (c : Char) (h : isLowerCaseLetter c = true)
    (hset : c ∉ (['b', 'f', 'n', 'r', 't', 'u'] : List Char)) :
    P1.ParseString ['[', '"', '\\', c, '"', ']'] = .err (.badEscapeScan c) ∧
    P2.Parse ['"', '\\', c, '"'] = .ok (.str []) [] := by
  simp only [List.mem_cons, List.not_mem_nil, or_false, not_or] at hset
  obtain ⟨hb, hf, hn, hr, ht, hu⟩ := hset
  have hbnd : ('a' ≤ c ∧ c ≤ 'z') := by
    simpa [isLowerCaseLetter, Bool.and_eq_true, decide_eq_true_iff] using h
  have h1 : 97 ≤ c.toNat := hbnd.1
  have h2 : c.toNat ≤ 122 := hbnd.2
  have hc : c = Char.ofNat c.toNat := (Char.ofNat_toNat c).symm
  generalize hg : c.toNat = k at h1 h2
  rw [hg] at hc
  subst hc
  interval_cases k <;>
    first
      | exact ⟨by rfl, by rfl⟩
      | exact absurd (by decide) hb
      | exact absurd (by decide) hf
      | exact absurd (by decide) hn
      | exact absurd (by decide) hr
      | exact absurd (by decide) ht
      | exact absurd (by decide) hu

/-- C6 witness: the amended theorem applied at the concrete letter q. -/
theorem c6_witness :
    (isLowerCaseLetter 'q' = true ∧ 'q' ∉ (['b', 'f', 'n', 'r', 't', 'u'] : List Char)) ∧
    (P1.ParseString ['[', '"', '\\', 'q', '"', ']'] = .err (.badEscapeScan 'q') ∧
     P2.Parse ['"', '\\', 'q', '"'] = .ok (.str []) []) :=
  ⟨⟨by decide, by decide⟩, c6_amended 'q' (by decide) (by decide)⟩

/-- C8: a duplicate object key overwrites the earlier binding in both
implementations: `{"a":1,"a":2}` parses to the single-key mapping
a ↦ 2. -/
theorem c8_correct :
    P1.ParseString "\x7b\"a\":1,\"a\":2\x7d".toList =
      .ok (.obj [(['a'], .num 2)])
        ⟨[], some ⟨.CURLY_BRACE_CLOSE, [rbrace]⟩, false⟩ ∧
    P2.Parse "\x7b\"a\":1,\"a\":2\x7d".toList = .ok (.obj [(['a'], .num 2)]) [] := by
  exact ⟨by rfl, by rfl⟩

/-- C10: comma tokens anywhere between the delimiters are consumed and
the member loop continues: stated as loop-step equations valid at any
position (any fuel, any accumulated members, any remaining input),
for arrays and objects of both implementations, together with the
concrete examples `[,1,,2,]` (the two-element sequence 1, 2) and
`{,}`/`{,"a":1,,"b":2,}` for objects. -/
theorem c10_commas :
    (∀ f acc lt rem, P1.scanArrayLoopF (Nat.succ f) acc ⟨',' :: rem, lt, false⟩ =
      P1.scanArrayLoopF f acc ⟨rem, some ⟨.COMMA, [',']⟩, false⟩) ∧
    (∀ f acc lt rem, P1.scanObjectLoopF (Nat.succ f) acc ⟨',' :: rem, lt, false⟩ =
      P1.scanObjectLoopF f acc ⟨rem, some ⟨.COMMA, [',']⟩, false⟩) ∧
    (∀ f acc rem, P2.arrayLoopF (Nat.succ f) acc (',' :: rem) =
      P2.arrayLoopF f acc rem) ∧
    (∀ f acc rem, P2.objectLoopF (Nat.succ f) acc (',' :: rem) =
      P2.objectLoopF f acc rem) ∧
    P1.ParseString "[,1,,2,]".toList =
      .ok (.arr [.num 1, .num 2]) ⟨[], some ⟨.SQUARED_BRACE_CLOSE, [']']⟩, false⟩ ∧
    P2.Parse "[,1,,2,]".toList = .ok (.arr [.num 1, .num 2]) [] ∧
    P1.ParseString "\x7b,\x7d".toList =
      .ok (.obj []) ⟨[], some ⟨.CURLY_BRACE_CLOSE, [rbrace]⟩, false⟩ ∧
    P2.Parse "\x7b,\x7d".toList = .ok (.obj []) [] ∧
    P1.ParseString "\x7b,\"a\":1,,\"b\":2,\x7d".toList =
      .ok (.obj [(['a'], .num 1), (['b'], .num 2)])
        ⟨[], some ⟨.CURLY_BRACE_CLOSE, [rbrace]⟩, false⟩ ∧
    P2.Parse "\x7b,\"a\":1,,\"b\":2,\x7d".toList =
      .ok (.obj [(['a'], .num 1), (['b'], .num 2)]) [] := by
  refine ⟨?_, ?_, ?_, ?_, by rfl, by rfl, by rfl, by rfl, by rfl, by rfl⟩
  · intro f acc lt rem
    simp +decide [P1.scanArrayLoopF, P1.scanIgnoreWhitespace, P1.scan, P1.Scan]
  · intro f acc lt rem
    simp +decide [P1.scanObjectLoopF, P1.scanIgnoreWhitespace, P1.scan, P1.Scan]
  · intro f acc rem
    simp +decide [P2.arrayLoopF, P2.skipWhitespace, P2.getToken]
  · intro f acc rem
    simp +decide [P2.objectLoopF, P2.skipWhitespace, P2.getToken]

/-- C1 counterexample: the claim says every valid JSON literal of any
kind given as the entire input parses.  The scanner-based `Parse`
rejects every top-level value other than an object or array — `null`
fails with its found-versus-expected error — the index-based `Parse`
rejects the valid number literal `-5` with an unknown-token error
(its `NumberStart` class has no sign), and the valid literal `10^309`
(one followed by 309 zeros, beyond `float64` range) fails in both
implementations with their number error, since `strconv.ParseFloat`
reports `ErrRange`. -/
theorem c1_counterexample :
    P1.ParseString "null".toList = .err (.topLevel .NULL) ∧
    P2.Parse "-5".toList = .err .unknownToken ∧
    P2.Parse ('1' :: List.replicate 309 '0') = .err .numberFormat ∧
    P1.ParseString ('[' :: '1' :: (List.replicate 309 '0' ++ [']'])) =
      .err .numberFormat := by
  exact ⟨by rfl, by rfl, by rfl, by rfl⟩

/-- C1 amended: for every value in the canonically rendered class
(null, booleans, nonnegative integer numbers below the `float64`
overflow threshold `2 ^ 1024 - 2 ^ 970`, strings of quote-,
backslash- and control-free characters, arrays, objects with distinct
keys; no insignificant whitespace), the index-based `Parse` succeeds
and returns exactly that value — `\x7b\x7d` the empty mapping, `[]`
the empty sequence, nesting preserved — and the scanner-based
`ParseString` does the same for every rendered container (object or
array) but rejects other top-level literals such as `null` with its
found-versus-expected error; the index-based `Parse` also rejects the
negative number literal `-5` with an unknown-token error. -/
theorem c1_amended :
    (∀ k t v, GoodRender k t v → P2.Parse t = .ok v []) ∧
    (∀ k t v, GoodRender k t v → isContainer v = true →
        ∃ tok, P1.ParseString t = .ok v ⟨[], some tok, false⟩) ∧
    P1.ParseString "null".toList = .err (.topLevel .NULL) ∧
    P2.Parse "-5".toList = .err .unknownToken := by
  refine ⟨?_, ?_, by rfl, by rfl⟩
  · intro k t v h
    have := parse_render k t v [] h (by intro q hq; rfl)
    simpa using this
  · intro k t v h hc
    have := parse_render1 k t v [] h hc
    simpa using this

/-- C1 witness: the amended theorem applied to the concrete rendered
value `\x7b"a":[1,null]\x7d` for both implementations. -/
theorem c1_witness :
    P2.Parse "\x7b\"a\":[1,null]\x7d".toList =
      .ok (.obj [(['a'], .arr [.num 1, .null])]) [] ∧
    (∃ tok, P1.ParseString "\x7b\"a\":[1,null]\x7d".toList =
      .ok (.obj [(['a'], .arr [.num 1, .null])]) ⟨[], some tok, false⟩) := by
  have d : GoodRender 12 "\x7b\"a\":[1,null]\x7d".toList
      (.obj [(['a'], .arr [.num ((1 : Nat) : ℚ), .null])]) :=
    GoodRender.obj (@GoodRenderO.single ['a'] 8 _ _ (by decide)
      (GoodRender.arr (GoodRenderL.cons (GoodRender.num 1 (by norm_num))
        (GoodRenderL.single GoodRender.null))))
  constructor
  · have := c1_amended.1 12 _ _ d
    simpa using this
  · have := c1_amended.2.1 12 _ _ d (by rfl)
    simpa using this

/-- C9 counterexample: the claim says trailing characters after a
complete top-level value are never examined and never cause an error.
In the index-based parse the complete value `1` followed by the
character `e` fails: the number token greedily absorbs the trailing
`e` and `ParseFloat` rejects `1e`. -/
theorem c9_counterexample : P2.Parse "1e".toList = .err .numberFormat := by rfl

/-- C9 amended: a canonically rendered value (numbers within `float64`
range) followed by arbitrary trailing characters parses to the
leading value with the trailing characters returned unexamined — in
the index-based parse for every rendered value provided the first
trailing character cannot extend a number token, and in the
scanner-based parse for every rendered container (object or array)
with any suffix whatsoever; when the value ends in a number token a
trailing number-body character is absorbed into the token, and the
index-based parse of `1e` fails with a number-format error. -/
theorem c9_amended :
    (∀ k t v rest, GoodRender k t v →
        (∀ q, v = JValue.num q → numSafe rest = true) →
        P2.Parse (t ++ rest) = .ok v rest) ∧
    (∀ k t v rest, GoodRender k t v → isContainer v = true →
        ∃ tok, P1.ParseString (t ++ rest) = .ok v ⟨rest, some tok, false⟩) ∧
    P2.Parse "1e".toList = .err .numberFormat := by
  refine ⟨?_, ?_, by rfl⟩
  · intro k t v rest h hsafe
    exact parse_render k t v rest h hsafe
  · intro k t v rest h hc
    exact parse_render1 k t v rest h hc

/-- C9 witness: the amended theorem applied to `\x7b\x7d xyz` for both
implementations. -/
theorem c9_witness :
    P2.Parse "\x7b\x7d xyz".toList = .ok (.obj []) " xyz".toList ∧
    (∃ tok, P1.ParseString "\x7b\x7d xyz".toList =
      .ok (.obj []) ⟨" xyz".toList, some tok, false⟩) := by
  constructor
  · exact c9_amended.1 3 (lbrace :: rbrace :: []) (.obj []) " xyz".toList
      (GoodRender.obj GoodRenderO.nil) (by intro q hq; simp at hq)
  · exact c9_amended.2.1 3 (lbrace :: rbrace :: []) (.obj []) " xyz".toList
      (GoodRender.obj GoodRenderO.nil) (by rfl)

end ClaimTheorems
